import Mathlib

/-!
Verification of `assemblyline/utils/compare_assemblies.py` (AssemblyLine).

This file gives a shallow embedding of the per-locus comparison engine of
`compare_assemblies.py`: the pairwise classifier `compare_locus`, the
best-match selector `MatchStats.choose_best`, and the nearest-neighbor
resolver `find_nearest_transcripts`, together with theorems about their
behaviour.

Conventions of the embedding:
* Genomic intervals are half-open `[start, stop)` pairs of naturals; the
  Python attribute `end` is rendered `stop` (`end` is reserved in Lean).
* Python ints are `ℕ`/`ℤ`; the Python floats in the ranking key of
  `choose_best` are modelled as exact rationals `ℚ`.
* The classifier's `assert` statements are modelled with `Except`: an
  assertion failure is `Except.error`, mirroring a raised `AssertionError`
  aborting the locus.
* Mutation of a `MatchStats` object (the read-through relabeling in
  `choose_best`) is modelled by explicitly returning the post-mutation
  candidate list next to the chosen record; the field `oid` models Python
  object identity (`id()`), which the source relies on both for aliasing
  and as the final fallback of tuple comparison during `hits.sort`.
* The per-reference accumulators kept in the `matches` defaultdict are
  built here one reference at a time (`accumulate_match`): the source's
  loops touch `matches[ref_id]` independently per reference id, so the
  accumulator of a pair is a function of that pair and the locus indexes.
  Reference transcript ids are taken to be distinct (they are GTF
  transcript identifiers, unique per the data model).
-/

namespace AsmCmp

/-- A half-open genomic interval `[start, stop)`.  Used both for exons and
for the nodes produced by boundary segmentation. -/
abbrev Ival := ℕ × ℕ

/-- An intron record `(strand, start, end)` as keyed in `ref_intron_dict`. -/
abbrev IntronKey := Bool × ℕ × ℕ

/-- The closed category enumeration of `assemblyline.lib.base.Category`
(the members used by `compare_assemblies.py`). -/
inductive Category where
  | SAME_STRAND
  | OPP_STRAND
  | INTRONIC_SAME_STRAND
  | INTRONIC_OPP_STRAND
  | INTERLEAVING_SAME_STRAND
  | INTERLEAVING_OPP_STRAND
  | ENCOMPASSING_SAME_STRAND
  | ENCOMPASSING_OPP_STRAND
  | INTERGENIC
  | READ_THROUGH
  deriving DecidableEq, Repr

/-- A parsed transcript record, per the data model: chromosome, span,
strand (forward = `true` / reverse = `false`), ordered exon list,
is-reference flag and identifiers. -/
structure Transcript where
  chrom : String
  start : ℕ
  stop : ℕ
  strand : Bool
  exons : List Ival
  is_ref : Bool
  transcript_id : String
  gene_id : String
  deriving DecidableEq, Repr

/-- Modelled from the spec: transcript length is the sum of exon spans
(the `length` property of `assemblyline.lib.transcript.Transcript`, which
is not under `src/`). -/
def Transcript.length (t : Transcript) : ℕ :=
  (t.exons.map (fun e => e.2 - e.1)).sum

/-- Modelled from the spec: `cmp_strand` of `assemblyline.lib.transcript`
is not under `src/`; the spec describes strands as forward/reverse and
same-direction comparison, so strand comparison is Boolean equality. -/
def cmp_strand (a b : Bool) : Bool := a == b

/-- The `iterintrons` generator of the transcript class: the gaps between
consecutive exons. -/
def iterintrons : List Ival → List Ival
  | (_, e1) :: (s2, e2) :: rest => (e1, s2) :: iterintrons ((s2, e2) :: rest)
  | _ => []

/-- A transcript's intron triples `(strand, start, end)`, exactly the
tuples built from `t.iterintrons()` in `compare_locus`; the same list, as
a tuple, is the transcript's splicing pattern. -/
def transcript_introns (t : Transcript) : List IntronKey :=
  (iterintrons t.exons).map (fun p => (t.strand, p.1, p.2))

/-- All exon start/end coordinates of one transcript. -/
def exon_coords (t : Transcript) : List ℕ :=
  t.exons.flatMap (fun e => [e.1, e.2])

/-- Modelled from the spec: `find_exon_boundaries` (in
`assemblyline.lib.assemble.transcript_graph`, not under `src/`) computes
the set of all distinct exon start/end coordinates across every
transcript in the locus, sorted ascending. -/
def find_exon_boundaries (transcripts : List Transcript) : List ℕ :=
  List.insertionSort (· ≤ ·) (transcripts.flatMap exon_coords).dedup

/-- Cuts the interval `[lo, hi)` at each of the (sorted) interior cut
points, producing the consecutive run of child intervals. -/
def chain_pairs : ℕ → List ℕ → ℕ → List Ival
  | lo, [], hi => [(lo, hi)]
  | lo, c :: rest, hi => (lo, c) :: chain_pairs c rest hi

/-- Modelled from the spec: `split_exons` splits an exon at every
boundary coordinate strictly inside it, producing a consecutive run of
non-overlapping child intervals that exactly covers the exon. -/
def split_exon (boundaries : List ℕ) (e : Ival) : List Ival :=
  chain_pairs e.1 (boundaries.filter (fun b => e.1 < b && b < e.2)) e.2

/-- The node set of a transcript: each exon split against the locus
boundary set (`split_exons(t, boundaries)` in the source). -/
def split_exons (t : Transcript) (boundaries : List ℕ) : List Ival :=
  t.exons.flatMap (split_exon boundaries)

/-- Interval-overlap test of the bx `IntervalTree.find` query used on the
intron tree: a node `[n.1, n.2)` overlaps an intron `[i.start, i.end)`
iff `n.1 < i.end` and `i.start < n.2` (any overlap, not exact). -/
def node_overlaps (n : Ival) (i : IntronKey) : Bool :=
  n.1 < i.2.2 && i.2.1 < n.2

/-- The per-reference match accumulator of `compare_locus` (class
`Match`): the `nodes` defaultdict is split into its four populated
categories. -/
structure Match where
  same_nodes : List Ival
  opp_nodes : List Ival
  intronic_same_nodes : List Ival
  intronic_opp_nodes : List Ival
  introns : List IntronKey
  splicing : Bool
  deriving DecidableEq, Repr

/-- The appends to the exonic bucket of `matches[ref_id]` over the node
loop: each node of the test transcript, once per occurrence of the node
among the reference's nodes (`ref_node_dict[n]` holds the reference once
per owned node with those exact bounds). -/
def exonic_hits (boundaries : List ℕ) (t r : Transcript) : List Ival :=
  (split_exons t boundaries).flatMap
    (fun n => List.replicate ((split_exons r boundaries).count n) n)

/-- The appends to the `INTRONIC_*` bucket of `matches[ref_id]` over the
node loop: each node of the test transcript, once per reference intron
overlapping it. -/
def intronic_hits (boundaries : List ℕ) (t r : Transcript) : List Ival :=
  (split_exons t boundaries).flatMap
    (fun n => List.replicate
      ((transcript_introns r).countP (fun i => node_overlaps n i)) n)

/-- The appends to `matches[ref_id].introns` over the intron loop: each
intron of the test transcript, once per occurrence among the reference's
introns. -/
def shared_intron_hits (t r : Transcript) : List IntronKey :=
  (transcript_introns t).flatMap
    (fun i => List.replicate ((transcript_introns r).count i) i)

/-- The accumulator `matches[ref_id]` of `compare_locus` for one
(test, reference) pair, after the node loop, the intron loop and the
splicing-pattern check.  The node-loop buckets are selected by
`cmp_strand(t.strand, ref.strand)`; the intron-tree hits carry the
reference's strand, so for one pair all of them land in the single
intronic bucket selected by the same comparison.  `splicing` is set iff
the test pattern is non-empty and equals the reference's pattern (only
non-empty reference patterns are indexed in `ref_splicing_patterns`). -/
def accumulate_match (boundaries : List ℕ) (t r : Transcript) : Match :=
  let same := cmp_strand t.strand r.strand
  { same_nodes := if same then exonic_hits boundaries t r else []
    opp_nodes := if same then [] else exonic_hits boundaries t r
    intronic_same_nodes := if same then intronic_hits boundaries t r else []
    intronic_opp_nodes := if same then [] else intronic_hits boundaries t r
    introns := shared_intron_hits t r
    splicing := decide (transcript_introns t ≠ [] ∧
      transcript_introns t = transcript_introns r) }

/-- Whether a `matches[ref_id]` entry exists at all: the defaultdict
creates an entry exactly when some append (or the splicing flag) touched
it. -/
def Match.nonempty (m : Match) : Bool :=
  !m.same_nodes.isEmpty || !m.opp_nodes.isEmpty || !m.intronic_same_nodes.isEmpty ||
  !m.intronic_opp_nodes.isEmpty || !m.introns.isEmpty || m.splicing

/-- Shared base pairs: the summed lengths of the nodes of one bucket
(`sum((n[1] - n[0]) for n in ...)`). -/
def bp (nodes : List Ival) : ℕ :=
  (nodes.map (fun n => n.2 - n.1)).sum

/-- The category decision of `compare_locus` (the block deciding `c` for
one test/ref pair), with the `assert` statements rendered as
`Except.error`. -/
def decide_category (m : Match) (num_nodes : ℕ) : Except String Category :=
  if m.splicing || decide (0 < m.introns.length) || decide (0 < bp m.same_nodes) then
    Except.ok Category.SAME_STRAND
  else if 0 < bp m.opp_nodes then
    Except.ok Category.OPP_STRAND
  else if m.same_nodes.length ≠ 0 then
    Except.error "assert num_same_strand == 0 failed"
  else if m.opp_nodes.length ≠ 0 then
    Except.error "assert num_opp_strand == 0 failed"
  else if m.intronic_same_nodes.length + m.intronic_opp_nodes.length = 0 then
    Except.error "assert num_intronic > 0 failed"
  else if m.intronic_same_nodes.length + m.intronic_opp_nodes.length = num_nodes then
    Except.ok (if 0 < m.intronic_same_nodes.length then Category.INTRONIC_SAME_STRAND
               else Category.INTRONIC_OPP_STRAND)
  else
    Except.ok (if 0 < m.intronic_same_nodes.length then Category.INTERLEAVING_SAME_STRAND
               else Category.INTERLEAVING_OPP_STRAND)

/-- The serializable record of one (test, reference) pair (class
`MatchStats`; display-only string fields such as the locus strings,
`gene_name`, `source` and `gene_type` are omitted).  `oid` models the
identity of the freshly allocated Python object. -/
structure MatchStats where
  oid : ℕ
  transcript_id : String
  gene_id : String
  length : ℕ
  num_introns : ℕ
  ref_transcript_id : String
  ref_gene_id : String
  ref_length : ℕ
  ref_num_introns : ℕ
  shared_same_strand_bp : ℕ
  shared_opp_strand_bp : ℕ
  shared_introns : ℕ
  shared_splicing : Bool
  distance : ℤ
  category : Category
  deriving DecidableEq, Repr

/-- `MatchStats.from_transcript(t, ref)` followed by the field
assignments of `compare_locus` (`num_introns` is `len(exons) - 1`). -/
def make_match_stats (oid : ℕ) (t r : Transcript) (m : Match) (c : Category) : MatchStats :=
  { oid := oid
    transcript_id := t.transcript_id
    gene_id := t.gene_id
    length := t.length
    num_introns := t.exons.length - 1
    ref_transcript_id := r.transcript_id
    ref_gene_id := r.gene_id
    ref_length := r.length
    ref_num_introns := r.exons.length - 1
    shared_same_strand_bp := bp m.same_nodes
    shared_opp_strand_bp := bp m.opp_nodes
    shared_introns := m.introns.length
    shared_splicing := m.splicing
    distance := 0
    category := c }

/-- Effectful map over a list: collects the results in order and aborts
at the first `Except.error`, like a Python loop in which an exception
propagates. -/
def mapExcept (f : α → Except String β) : List α → Except String (List β)
  | [] => Except.ok []
  | a :: l =>
    match f a with
    | Except.error e => Except.error e
    | Except.ok b =>
      match mapExcept f l with
      | Except.error e => Except.error e
      | Except.ok bs => Except.ok (b :: bs)

/-- Tags each element with a fresh index, modelling the identity of
objects freshly allocated one per loop iteration. -/
def with_oids : ℕ → List α → List (ℕ × α)
  | _, [] => []
  | i, a :: l => (i, a) :: with_oids (i + 1) l

/-- The reference transcripts of a locus, in locus order. -/
def ref_transcripts (transcripts : List Transcript) : List Transcript :=
  transcripts.filter (fun t => t.is_ref)

/-- The non-reference (test) transcripts of a locus, in locus order. -/
def test_transcripts (transcripts : List Transcript) : List Transcript :=
  transcripts.filter (fun t => !t.is_ref)

/-- The `match_stats` list built by `compare_locus` for one test
transcript: one `MatchStats` per reference whose accumulator was touched,
with the category decided by `decide_category` (an assertion failure
aborts the locus). -/
def locus_match_stats (transcripts : List Transcript) (t : Transcript) :
    Except String (List MatchStats) :=
  let boundaries := find_exon_boundaries transcripts
  let nodes := split_exons t boundaries
  let pairs := (ref_transcripts transcripts).filterMap (fun r =>
    let m := accumulate_match boundaries t r
    if m.nonempty then some (r, m) else none)
  mapExcept (fun x =>
      (decide_category x.2.2 nodes.length).map (make_match_stats x.1 t x.2.1 x.2.2))
    (with_oids 0 pairs)

/-- `int(m.shared_splicing)`. -/
def bool_int (b : Bool) : ℕ := if b then 1 else 0

/-- `intron_frac` of `choose_best`, with the source's zero guard on
`total_introns` only. -/
def intron_frac (m : MatchStats) : ℚ :=
  let total_introns := m.num_introns + m.ref_num_introns
  if total_introns = 0 then 0
  else (m.shared_introns : ℚ) / ((total_introns : ℚ) - (m.shared_introns : ℚ))

/-- `same_strand_frac` of `choose_best`. -/
def same_strand_frac (m : MatchStats) : ℚ :=
  (m.shared_same_strand_bp : ℚ) /
    ((m.length : ℚ) + (m.ref_length : ℚ) - (m.shared_same_strand_bp : ℚ))

/-- `opp_strand_frac` of `choose_best`. -/
def opp_strand_frac (m : MatchStats) : ℚ :=
  (m.shared_opp_strand_bp : ℚ) /
    ((m.length : ℚ) + (m.ref_length : ℚ) - (m.shared_opp_strand_bp : ℚ))

/-- The 12-component ranking tuple of `choose_best`, ordered
lexicographically (the order of Python tuple comparison). -/
abbrev RKey :=
  ℕ ×ₗ ℚ ×ₗ ℚ ×ₗ ℚ ×ₗ ℕ ×ₗ ℕ ×ₗ ℕ ×ₗ ℕ ×ₗ ℕ ×ₗ ℕ ×ₗ ℕ ×ₗ ℤ

/-- The ranking key of one candidate, exactly the tuple appended to
`hits` (without its final `MatchStats` element). -/
def rank_key (m : MatchStats) : RKey :=
  toLex (bool_int m.shared_splicing,
   toLex (intron_frac m,
    toLex (same_strand_frac m,
     toLex (opp_strand_frac m,
      toLex (bool_int (m.category == Category.INTRONIC_SAME_STRAND),
       toLex (bool_int (m.category == Category.INTRONIC_OPP_STRAND),
        toLex (bool_int (m.category == Category.INTERLEAVING_SAME_STRAND),
         toLex (bool_int (m.category == Category.INTERLEAVING_OPP_STRAND),
          toLex (bool_int (m.category == Category.ENCOMPASSING_SAME_STRAND),
           toLex (bool_int (m.category == Category.ENCOMPASSING_OPP_STRAND),
            toLex (bool_int (m.category == Category.INTERGENIC),
             -|m.distance|)))))))))))

/-- The full comparison key of one `hits` tuple: Python compares the
final `MatchStats` element (by object identity) when all twelve numeric
components tie, so the object identity is the last lexicographic
component. -/
def full_key (m : MatchStats) : RKey ×ₗ ℕ :=
  toLex (rank_key m, m.oid)

/-- The descending order in which `hits.sort(reverse=True)` arranges the
tuples: `a` precedes `b` iff `a`'s full key is at least `b`'s. -/
def desc_le (a b : MatchStats) : Prop := full_key b ≤ full_key a

instance : DecidableRel desc_le :=
  fun a b => inferInstanceAs (Decidable (full_key b ≤ full_key a))

instance : IsTotal MatchStats desc_le :=
  ⟨fun a b => le_total (full_key b) (full_key a)⟩

instance : IsTrans MatchStats desc_le :=
  ⟨fun _ _ _ hab hbc => le_trans hbc hab⟩

/-- `hits.sort(reverse=True)`: the candidates in descending key order. -/
def sort_desc (lst : List MatchStats) : List MatchStats :=
  List.insertionSort desc_le lst

/-- The distinct reference gene ids of the `SAME_STRAND` candidates (the
`same_strand_gene_ids` set of `choose_best`). -/
def same_strand_gene_ids (lst : List MatchStats) : List String :=
  ((lst.filter (fun m => m.category == Category.SAME_STRAND)).map
    (fun m => m.ref_gene_id)).dedup

/-- `MatchStats.choose_best`, returning both the chosen record and the
candidate list as observable after the call: `hit.category =
Category.READ_THROUGH` mutates the winning object in place, and that
object is aliased into the caller's `match_stats` list, so the
relabeling is visible there too. -/
def MatchStats.choose_best_full (lst : List MatchStats) :
    Option MatchStats × List MatchStats :=
  match sort_desc lst with
  | [] => (none, lst)
  | hit :: _ =>
    if hit.category = Category.SAME_STRAND ∧ 1 < (same_strand_gene_ids lst).length then
      (some { hit with category := Category.READ_THROUGH },
       lst.map (fun m => if m.oid = hit.oid then { m with category := Category.READ_THROUGH } else m))
    else
      (some hit, lst)

/-- The return value of `MatchStats.choose_best`. -/
def MatchStats.choose_best (lst : List MatchStats) : Option MatchStats :=
  (MatchStats.choose_best_full lst).1

/-- One locus pass of `compare_locus`: for each test transcript, the
emitted triple `(t, best_match, match_stats)`, where `match_stats` is
the detail list as observable after `choose_best` ran. -/
def compare_locus (transcripts : List Transcript) :
    Except String (List (Transcript × Option MatchStats × List MatchStats)) :=
  mapExcept (fun t =>
      (locus_match_stats transcripts t).map (fun ms =>
        let r := MatchStats.choose_best_full ms
        (t, r.1, r.2)))
    (test_transcripts transcripts)

/-- The category precedence in the words of the spec (§4.4 step 4):
SAME_STRAND on shared splicing, a shared intron or same-strand shared bp;
else OPP_STRAND on opposite-strand shared bp; else INTRONIC if every node
of the test transcript fell in an intronic bucket (same-strand variant if
any intronic-bucketed node was same-strand), INTERLEAVING likewise when
only some nodes did.  Stated for comparison against `decide_category`. -/
def spec_category (m : Match) (t_nodes : List Ival) : Category :=
  if m.splicing = true ∨ 0 < m.introns.length ∨ 0 < bp m.same_nodes then
    Category.SAME_STRAND
  else if 0 < bp m.opp_nodes then
    Category.OPP_STRAND
  else if ∀ n ∈ t_nodes, n ∈ m.intronic_same_nodes ∨ n ∈ m.intronic_opp_nodes then
    if m.intronic_same_nodes ≠ [] then Category.INTRONIC_SAME_STRAND
    else Category.INTRONIC_OPP_STRAND
  else
    if m.intronic_same_nodes ≠ [] then Category.INTERLEAVING_SAME_STRAND
    else Category.INTERLEAVING_OPP_STRAND

/-- Search bound of the nearest-neighbor pass (`MAX_LOCUS_DIST`). -/
def MAX_LOCUS_DIST : ℕ := 100000000

/-- A reference locus feature (`LocusFeature`): one reference transcript
contributing to a clustered reference gene locus (display-only string
fields omitted). -/
structure LocusFeature where
  chrom : String
  start : ℕ
  stop : ℕ
  strand : Bool
  transcript_id : String
  gene_id : String
  length : ℕ
  num_introns : ℕ
  deriving DecidableEq, Repr

/-- One interval of a per-chromosome locus tree: the clustered locus
span, carrying the contributing reference features. -/
structure LocusInterval where
  start : ℕ
  stop : ℕ
  value : List LocusFeature
  deriving DecidableEq, Repr

/-- Modelled from the spec: the interval-tree `find` of the bx
collaborator (not under `src/`): all intervals overlapping the half-open
query `[start, stop)`. -/
def interval_find (tree : List LocusInterval) (start stop : ℕ) : List LocusInterval :=
  tree.filter (fun i => i.start < stop && start < i.stop)

/-- Modelled from the spec: the interval-tree `before(pos, num_intervals=1,
max_dist)` of the bx collaborator (not under `src/`): the single nearest
interval lying strictly before `pos`, within the maximum search
distance. -/
def interval_before (tree : List LocusInterval) (pos : ℕ) (max_dist : ℕ) : List LocusInterval :=
  match ((tree.filter (fun i => i.stop ≤ pos && pos - i.stop ≤ max_dist)).argmax
      (fun i => i.stop)) with
  | none => []
  | some i => [i]

/-- Modelled from the spec: the interval-tree `after(pos, num_intervals=1,
max_dist)` of the bx collaborator (not under `src/`): the single nearest
interval lying strictly after `pos`, within the maximum search
distance. -/
def interval_after (tree : List LocusInterval) (pos : ℕ) (max_dist : ℕ) : List LocusInterval :=
  match ((tree.filter (fun i => pos ≤ i.start && i.start - pos ≤ max_dist)).argmin
      (fun i => i.start)) with
  | none => []
  | some i => [i]

/-- The distance computation `min(abs(start - x.end), abs(x.start - end))`
of `find_nearest_transcripts`, applied both to locus intervals (to pick
the nearest hit) and to individual features (to attach a distance). -/
def hit_dist (start stop : ℕ) (hstart hstop : ℕ) : ℤ :=
  min |(start : ℤ) - (hstop : ℤ)| |(hstart : ℤ) - (stop : ℤ)|

/-- The nearest-hit scan of `find_nearest_transcripts`: starting from
`nearest_dist = MAX_LOCUS_DIST`, keep the hit whose locus-span distance
is strictly smaller than the best so far. -/
def nearest_in (hits : List LocusInterval) (start stop : ℕ) : Option LocusInterval :=
  (hits.foldl
    (fun acc hit =>
      let d := hit_dist start stop hit.start hit.stop
      if d < acc.2 then (some hit, d) else acc)
    ((none : Option LocusInterval), (MAX_LOCUS_DIST : ℤ))).1

/-- `find_nearest_transcripts`: every feature of every locus overlapping
the query span becomes an ENCOMPASSING candidate at distance 0; then, on
each side, the nearest non-overlapping locus contributes one INTERGENIC
candidate per feature, each carrying the distance recomputed from that
feature's own coordinates. -/
def find_nearest_transcripts (chrom : String) (start stop : ℕ) (strand : Bool)
    (locus_trees : String → List LocusInterval) :
    List (LocusFeature × Category × ℤ) :=
  let tree := locus_trees chrom
  let overlap_hits := interval_find tree start stop
  let encompassing := overlap_hits.flatMap (fun hit => hit.value.map (fun f =>
    (f, if cmp_strand f.strand strand then Category.ENCOMPASSING_SAME_STRAND
        else Category.ENCOMPASSING_OPP_STRAND, (0 : ℤ))))
  let left_hits := interval_before tree start MAX_LOCUS_DIST
  let right_hits := interval_after tree stop MAX_LOCUS_DIST
  let side := fun (hits : List LocusInterval) =>
    match nearest_in hits start stop with
    | none => ([] : List (LocusFeature × Category × ℤ))
    | some h => h.value.map (fun f =>
        (f, Category.INTERGENIC, hit_dist start stop f.start f.stop))
  encompassing ++ side left_hits ++ side right_hits

/-- Whether consecutive exons are sorted and non-overlapping:
`a.stop ≤ b.start` for each adjacent pair. -/
def exons_sorted : List Ival → Bool
  | [] => true
  | [_] => true
  | a :: b :: l => (decide (a.2 ≤ b.1)) && exons_sorted (b :: l)

/-- Well-formed exon list, per the data model invariant: non-empty,
every exon a proper interval, sorted and non-overlapping. -/
def WFTranscript (t : Transcript) : Prop :=
  t.exons ≠ [] ∧ (∀ e ∈ t.exons, e.1 < e.2) ∧ exons_sorted t.exons = true

/-- Every transcript of the locus is well-formed. -/
def WFLocus (transcripts : List Transcript) : Prop :=
  ∀ t ∈ transcripts, WFTranscript t

instance : DecidablePred WFTranscript := fun t =>
  inferInstanceAs (Decidable (t.exons ≠ [] ∧ (∀ e ∈ t.exons, e.1 < e.2) ∧
    exons_sorted t.exons = true))

instance : DecidablePred WFLocus := fun ts =>
  inferInstanceAs (Decidable (∀ t ∈ ts, WFTranscript t))

/-! ### Concrete example data

Small loci used to instantiate the theorems below on concrete inputs:
an exact two-exon match, a single-exon transcript inside a reference
intron, a read-through locus with two same-strand reference genes, and a
nearest-neighbor tree whose locus span differs from a contained
feature's span. -/

def exRef : Transcript :=
  { chrom := "chr1", start := 100, stop := 400, strand := true,
    exons := [(100, 200), (300, 400)], is_ref := true,
    transcript_id := "R1", gene_id := "G1" }

def exTest : Transcript :=
  { chrom := "chr1", start := 100, stop := 400, strand := true,
    exons := [(100, 200), (300, 400)], is_ref := false,
    transcript_id := "T1", gene_id := "TG1" }

def exLocus : List Transcript := [exRef, exTest]

def exMS : MatchStats :=
  make_match_stats 0 exTest exRef
    (accumulate_match (find_exon_boundaries exLocus) exTest exRef)
    Category.SAME_STRAND

def inR : Transcript :=
  { chrom := "chr1", start := 0, stop := 30, strand := true,
    exons := [(0, 10), (20, 30)], is_ref := true,
    transcript_id := "R1", gene_id := "G1" }

def inT : Transcript :=
  { chrom := "chr1", start := 12, stop := 18, strand := true,
    exons := [(12, 18)], is_ref := false,
    transcript_id := "T1", gene_id := "TG1" }

def inLocus : List Transcript := [inR, inT]

def inMS : MatchStats :=
  make_match_stats 0 inT inR
    (accumulate_match (find_exon_boundaries inLocus) inT inR)
    Category.INTRONIC_SAME_STRAND

def rtR1 : Transcript :=
  { chrom := "chr1", start := 0, stop := 10, strand := true,
    exons := [(0, 10)], is_ref := true, transcript_id := "R1", gene_id := "G1" }

def rtR2 : Transcript :=
  { chrom := "chr1", start := 0, stop := 10, strand := true,
    exons := [(0, 10)], is_ref := true, transcript_id := "R2", gene_id := "G2" }

def rtT : Transcript :=
  { chrom := "chr1", start := 0, stop := 10, strand := true,
    exons := [(0, 10)], is_ref := false, transcript_id := "T1", gene_id := "TG1" }

def rtLocus : List Transcript := [rtR1, rtR2, rtT]

def rtMS0 : MatchStats :=
  make_match_stats 0 rtT rtR1
    (accumulate_match (find_exon_boundaries rtLocus) rtT rtR1)
    Category.SAME_STRAND

def rtMS1 : MatchStats :=
  make_match_stats 1 rtT rtR2
    (accumulate_match (find_exon_boundaries rtLocus) rtT rtR2)
    Category.SAME_STRAND

def nnF1 : LocusFeature :=
  { chrom := "chr1", start := 0, stop := 100, strand := true,
    transcript_id := "R1", gene_id := "G1", length := 100, num_introns := 0 }

def nnF2 : LocusFeature :=
  { chrom := "chr1", start := 0, stop := 50, strand := true,
    transcript_id := "R2", gene_id := "G2", length := 50, num_introns := 0 }

def nnLocus : LocusInterval := { start := 0, stop := 100, value := [nnF1, nnF2] }

def nnTrees : String → List LocusInterval := fun c =>
  if c = "chr1" then [nnLocus] else []

/-! ### Generic list lemmas -/

theorem mapExcept_ok_mem {f : α → Except String β} {l : List α} {out : List β}
    (h : mapExcept f l = Except.ok out) {b : β} (hb : b ∈ out) :
    ∃ a ∈ l, f a = Except.ok b := by
  induction l generalizing out with
  | nil =>
    simp only [mapExcept] at h
    cases h
    simp at hb
  | cons a l ih =>
    simp only [mapExcept] at h
    cases hfa : f a with
    | error e => rw [hfa] at h; exact absurd h (by simp)
    | ok b0 =>
      rw [hfa] at h
      cases hre : mapExcept f l with
      | error e => rw [hre] at h; exact absurd h (by simp)
      | ok out0 =>
        rw [hre] at h
        simp only [Except.ok.injEq] at h
        subst h
        rcases List.mem_cons.mp hb with hb | hb
        · exact ⟨a, List.mem_cons_self a l, by rw [hfa, hb]⟩
        · obtain ⟨a', ha', hfa'⟩ := ih hre hb
          exact ⟨a', List.mem_cons_of_mem _ ha', hfa'⟩

theorem mapExcept_ok_forall {f : α → Except String β} {l : List α} {out : List β}
    (h : mapExcept f l = Except.ok out) {a : α} (ha : a ∈ l) :
    ∃ b ∈ out, f a = Except.ok b := by
  induction l generalizing out with
  | nil => simp at ha
  | cons x l ih =>
    simp only [mapExcept] at h
    cases hfx : f x with
    | error e => rw [hfx] at h; exact absurd h (by simp)
    | ok b0 =>
      rw [hfx] at h
      cases hre : mapExcept f l with
      | error e => rw [hre] at h; exact absurd h (by simp)
      | ok out0 =>
        rw [hre] at h
        simp only [Except.ok.injEq] at h
        subst h
        rcases List.mem_cons.mp ha with ha | ha
        · exact ⟨b0, List.mem_cons_self _ _, by rw [ha, hfx]⟩
        · obtain ⟨b, hb, hfb⟩ := ih hre ha
          exact ⟨b, List.mem_cons_of_mem _ hb, hfb⟩

theorem mapExcept_exists_ok {f : α → Except String β} {l : List α}
    (h : ∀ a ∈ l, ∃ b, f a = Except.ok b) :
    ∃ out, mapExcept f l = Except.ok out := by
  induction l with
  | nil => exact ⟨[], rfl⟩
  | cons a l ih =>
    obtain ⟨b, hb⟩ := h a (List.mem_cons_self a l)
    obtain ⟨out, hout⟩ := ih (fun x hx => h x (List.mem_cons_of_mem _ hx))
    refine ⟨b :: out, ?_⟩
    simp only [mapExcept, hb, hout]

theorem mem_with_oids {l : List α} {k i : ℕ} {a : α}
    (h : (i, a) ∈ with_oids k l) : a ∈ l := by
  induction l generalizing k with
  | nil => simp [with_oids] at h
  | cons x l ih =>
    simp only [with_oids, List.mem_cons] at h
    rcases h with h | h
    · cases h; exact List.mem_cons_self _ _
    · exact List.mem_cons_of_mem _ (ih h)

theorem with_oids_of_mem {l : List α} {a : α} (ha : a ∈ l) (k : ℕ) :
    ∃ i, (i, a) ∈ with_oids k l := by
  induction l generalizing k with
  | nil => simp at ha
  | cons x l ih =>
    rcases List.mem_cons.mp ha with ha | ha
    · exact ⟨k, by simp [with_oids, ha]⟩
    · obtain ⟨i, hi⟩ := ih ha (k + 1)
      exact ⟨i, List.mem_cons_of_mem _ hi⟩

theorem length_flatMap_replicate (l : List α) (c : α → ℕ) :
    (l.flatMap (fun a => List.replicate (c a) a)).length = (l.map c).sum := by
  induction l with
  | nil => rfl
  | cons a l ih => simp [List.flatMap_cons, ih]

theorem mem_flatMap_replicate [DecidableEq α] {l : List α} {c : α → ℕ} {b : α} :
    b ∈ l.flatMap (fun a => List.replicate (c a) a) ↔ b ∈ l ∧ 0 < c b := by
  simp only [List.mem_flatMap, List.mem_replicate]
  constructor
  · rintro ⟨a, ha, hc, rfl⟩
    exact ⟨ha, Nat.pos_of_ne_zero hc⟩
  · rintro ⟨hb, hc⟩
    exact ⟨b, hb, Nat.pos_iff_ne_zero.mp hc, rfl⟩

theorem flatMap_replicate_eq_nil {l : List α} {c : α → ℕ} :
    l.flatMap (fun a => List.replicate (c a) a) = [] ↔ ∀ a ∈ l, c a = 0 := by
  simp [List.flatMap_eq_nil_iff, List.replicate_eq_nil_iff]

theorem sum_map_le_length (l : List α) (f : α → ℕ) (h : ∀ a ∈ l, f a ≤ 1) :
    (l.map f).sum ≤ l.length := by
  induction l with
  | nil => simp
  | cons a l ih =>
    simp only [List.map_cons, List.sum_cons, List.length_cons]
    have h1 := h a (List.mem_cons_self a l)
    have h2 := ih (fun x hx => h x (List.mem_cons_of_mem _ hx))
    omega

theorem sum_map_eq_length_iff (l : List α) (f : α → ℕ) (h : ∀ a ∈ l, f a ≤ 1) :
    (l.map f).sum = l.length ↔ ∀ a ∈ l, f a = 1 := by
  induction l with
  | nil => simp
  | cons a l ih =>
    simp only [List.map_cons, List.sum_cons, List.length_cons, List.mem_cons]
    have h1 := h a (List.mem_cons_self a l)
    have h2 := sum_map_le_length l f (fun x hx => h x (List.mem_cons_of_mem _ hx))
    have h3 := ih (fun x hx => h x (List.mem_cons_of_mem _ hx))
    constructor
    · intro he
      have hfa : f a = 1 := by omega
      have hsum : (l.map f).sum = l.length := by omega
      rintro x (rfl | hx)
      · exact hfa
      · exact h3.mp hsum x hx
    · intro hall
      have hfa : f a = 1 := hall a (Or.inl rfl)
      have hsum : (l.map f).sum = l.length :=
        h3.mpr (fun x hx => hall x (Or.inr hx))
      omega

theorem sum_map_indicator [DecidableEq α] {l : List α} (hl : l.Nodup) (b : α) :
    (l.map (fun a => if b = a then 1 else 0)).sum = if b ∈ l then 1 else 0 := by
  induction l with
  | nil => simp
  | cons x l ih =>
    rcases List.nodup_cons.mp hl with ⟨hx, hl'⟩
    simp only [List.map_cons, List.sum_cons, ih hl', List.mem_cons]
    by_cases hxb : b = x
    · subst hxb
      rw [if_pos rfl, if_neg hx, if_pos (Or.inl rfl)]
    · rw [if_neg hxb, Nat.zero_add]
      by_cases hbl : b ∈ l
      · rw [if_pos hbl, if_pos (Or.inr hbl)]
      · have hnb : ¬(b = x ∨ b ∈ l) := by
          rintro (h | h)
          · exact hxb h
          · exact hbl h
        rw [if_neg hbl, if_neg hnb]

theorem sum_map_add_nat (l : List α) (f g : α → ℕ) :
    (l.map (fun a => f a + g a)).sum = (l.map f).sum + (l.map g).sum := by
  induction l with
  | nil => rfl
  | cons x xs ih =>
    simp only [List.map_cons, List.sum_cons, ih]
    omega

theorem count_eq_countP_decide [inst : BEq α] [LawfulBEq α] [DecidableEq α]
    (a : α) (l : List α) :
    l.count a = l.countP (fun x => decide (x = a)) := by
  unfold List.count
  apply List.countP_congr
  intro x _
  by_cases hx : x = a
  · simp [hx]
  · simp [hx]

theorem nodup_countP_le_one [DecidableEq α] {l : List α} (h : l.Nodup) (a : α) :
    l.countP (fun x => decide (x = a)) ≤ 1 := by
  induction l with
  | nil => simp
  | cons x l ih =>
    rw [List.countP_cons]
    rcases List.nodup_cons.mp h with ⟨hx, hl⟩
    by_cases hxa : x = a
    · subst hxa
      have hz : l.countP (fun y => decide (y = x)) = 0 := by
        rw [List.countP_eq_zero]
        intro y hy
        simp only [decide_eq_true_eq]
        rintro rfl
        exact hx hy
      simp [hz]
    · have := ih hl
      simp only [decide_eq_true_eq]
      rw [if_neg hxa]
      omega

theorem sum_map_countP_eq [DecidableEq α] {l1 : List α} (h1 : l1.Nodup)
    (l2 : List α) :
    (l1.map (fun a => l2.countP (fun x => decide (x = a)))).sum =
      l2.countP (fun b => decide (b ∈ l1)) := by
  induction l2 with
  | nil => simp
  | cons b l2 ih =>
    have hmc : (l1.map (fun a => (b :: l2).countP (fun x => decide (x = a)))).sum =
        (l1.map (fun a =>
          l2.countP (fun x => decide (x = a)) + (if b = a then 1 else 0))).sum := by
      congr 1
      apply List.map_congr_left
      intro a _
      rw [List.countP_cons]
      by_cases hba : b = a <;> simp [hba]
    rw [hmc, sum_map_add_nat, ih, List.countP_cons, sum_map_indicator h1 b]
    by_cases hb : b ∈ l1 <;> simp [hb]

/-! ### Boundary and segmentation lemmas -/

theorem boundaries_sorted (transcripts : List Transcript) :
    (find_exon_boundaries transcripts).Sorted (· < ·) := by
  have hsorted : (find_exon_boundaries transcripts).Sorted (· ≤ ·) :=
    List.sorted_insertionSort (· ≤ ·) _
  have hperm := List.perm_insertionSort (· ≤ ·) (transcripts.flatMap exon_coords).dedup
  have hnodup : (find_exon_boundaries transcripts).Nodup :=
    hperm.nodup_iff.mpr (List.nodup_dedup _)
  exact List.Sorted.lt_of_le hsorted hnodup

theorem mem_boundaries {transcripts : List Transcript} {b : ℕ} :
    b ∈ find_exon_boundaries transcripts ↔ ∃ t ∈ transcripts, b ∈ exon_coords t := by
  have hperm := List.perm_insertionSort (· ≤ ·) (transcripts.flatMap exon_coords).dedup
  rw [show find_exon_boundaries transcripts =
      List.insertionSort (· ≤ ·) (transcripts.flatMap exon_coords).dedup from rfl]
  rw [hperm.mem_iff, List.mem_dedup, List.mem_flatMap]

theorem chain_pairs_bounds {cuts : List ℕ} {lo hi : ℕ}
    (hsorted : cuts.Sorted (· < ·)) (hin : ∀ c ∈ cuts, lo < c ∧ c < hi)
    (hlt : lo < hi) :
    ∀ p ∈ chain_pairs lo cuts hi, lo ≤ p.1 ∧ p.1 < p.2 ∧ p.2 ≤ hi := by
  induction cuts generalizing lo with
  | nil =>
    intro p hp
    simp only [chain_pairs, List.mem_singleton] at hp
    subst hp
    exact ⟨le_refl _, hlt, le_refl _⟩
  | cons c rest ih =>
    intro p hp
    obtain ⟨hlc, hch⟩ := hin c (List.mem_cons_self _ _)
    simp only [chain_pairs, List.mem_cons] at hp
    rcases hp with rfl | hp
    · exact ⟨le_refl _, hlc, le_of_lt hch⟩
    · have hrest : ∀ x ∈ rest, c < x ∧ x < hi := by
        intro x hx
        exact ⟨(List.sorted_cons.mp hsorted).1 x hx, (hin x (List.mem_cons_of_mem _ hx)).2⟩
      obtain ⟨h1, h2, h3⟩ := ih (List.sorted_cons.mp hsorted).2 hrest hch p hp
      exact ⟨le_trans (le_of_lt hlc) h1, h2, h3⟩

theorem chain_pairs_not_inside {cuts : List ℕ} {lo hi : ℕ}
    (hsorted : cuts.Sorted (· < ·)) (hin : ∀ c ∈ cuts, lo < c ∧ c < hi)
    (hlt : lo < hi) :
    ∀ p ∈ chain_pairs lo cuts hi, ∀ b ∈ cuts, ¬(p.1 < b ∧ b < p.2) := by
  induction cuts generalizing lo with
  | nil =>
    intro p _ b hb
    simp at hb
  | cons c rest ih =>
    intro p hp b hb
    obtain ⟨hlc, hch⟩ := hin c (List.mem_cons_self _ _)
    have hrest : ∀ x ∈ rest, c < x ∧ x < hi := by
      intro x hx
      exact ⟨(List.sorted_cons.mp hsorted).1 x hx, (hin x (List.mem_cons_of_mem _ hx)).2⟩
    simp only [chain_pairs, List.mem_cons] at hp
    rcases hp with rfl | hp
    · rcases List.mem_cons.mp hb with rfl | hb
      · rintro ⟨_, habs⟩
        exact lt_irrefl _ habs
      · rintro ⟨_, habs⟩
        exact absurd ((List.sorted_cons.mp hsorted).1 b hb) (not_lt.mpr (le_of_lt habs))
    · rcases List.mem_cons.mp hb with rfl | hb
      · rintro ⟨habs, _⟩
        have := (chain_pairs_bounds (List.sorted_cons.mp hsorted).2 hrest hch p hp).1
        exact absurd habs (not_lt.mpr this)
      · exact ih (List.sorted_cons.mp hsorted).2 hrest hch p hp b hb

theorem split_exon_mem {bo : List ℕ} {e : Ival} (hbo : bo.Sorted (· < ·))
    (he : e.1 < e.2) :
    ∀ p ∈ split_exon bo e, e.1 ≤ p.1 ∧ p.1 < p.2 ∧ p.2 ≤ e.2 := by
  have hcuts : (bo.filter (fun b => e.1 < b && b < e.2)).Sorted (· < ·) :=
    List.Sorted.filter _ hbo
  have hin : ∀ c ∈ bo.filter (fun b => e.1 < b && b < e.2), e.1 < c ∧ c < e.2 := by
    intro c hc
    have := List.of_mem_filter hc
    simpa using this
  exact chain_pairs_bounds hcuts hin he

theorem split_exon_not_inside {bo : List ℕ} {e : Ival} (hbo : bo.Sorted (· < ·))
    (he : e.1 < e.2) :
    ∀ p ∈ split_exon bo e, ∀ b ∈ bo, ¬(p.1 < b ∧ b < p.2) := by
  have hcuts : (bo.filter (fun b => e.1 < b && b < e.2)).Sorted (· < ·) :=
    List.Sorted.filter _ hbo
  have hin : ∀ c ∈ bo.filter (fun b => e.1 < b && b < e.2), e.1 < c ∧ c < e.2 := by
    intro c hc
    have := List.of_mem_filter hc
    simpa using this
  intro p hp b hb
  rintro ⟨h1, h2⟩
  obtain ⟨hb1, hb2, hb3⟩ := split_exon_mem hbo he p hp
  have hbc : b ∈ bo.filter (fun b => e.1 < b && b < e.2) := by
    apply List.mem_filter.mpr
    refine ⟨hb, ?_⟩
    simp only [Bool.and_eq_true, decide_eq_true_eq]
    exact ⟨lt_of_le_of_lt hb1 h1, lt_of_lt_of_le h2 hb3⟩
  exact chain_pairs_not_inside hcuts hin he p hp b hbc ⟨h1, h2⟩

theorem split_exons_mem_exon {bo : List ℕ} {t : Transcript}
    (hwf : WFTranscript t) (hbo : bo.Sorted (· < ·)) :
    ∀ n ∈ split_exons t bo, ∃ e ∈ t.exons, e.1 ≤ n.1 ∧ n.1 < n.2 ∧ n.2 ≤ e.2 := by
  intro n hn
  obtain ⟨e, he, hne⟩ := List.mem_flatMap.mp hn
  exact ⟨e, he, split_exon_mem hbo (hwf.2.1 e he) n hne⟩

theorem split_exons_pos {bo : List ℕ} {t : Transcript}
    (hwf : WFTranscript t) (hbo : bo.Sorted (· < ·)) :
    ∀ n ∈ split_exons t bo, 0 < n.2 - n.1 := by
  intro n hn
  obtain ⟨e, _, _, h2, _⟩ := split_exons_mem_exon hwf hbo n hn
  omega

theorem split_exons_not_inside {bo : List ℕ} {t : Transcript}
    (hwf : WFTranscript t) (hbo : bo.Sorted (· < ·)) :
    ∀ n ∈ split_exons t bo, ∀ b ∈ bo, ¬(n.1 < b ∧ b < n.2) := by
  intro n hn
  obtain ⟨e, he, hne⟩ := List.mem_flatMap.mp hn
  exact split_exon_not_inside hbo (hwf.2.1 e he) n hne

/-! ### Intron structure lemmas -/

theorem exons_sorted_chain' :
    ∀ l : List Ival, exons_sorted l = true → l.Chain' (fun a b => a.2 ≤ b.1)
  | [], _ => List.chain'_nil
  | [a], _ => List.chain'_singleton a
  | a :: b :: l, h => by
    simp only [exons_sorted, Bool.and_eq_true, decide_eq_true_eq] at h
    exact List.chain'_cons.mpr ⟨h.1, exons_sorted_chain' (b :: l) h.2⟩

theorem iterintrons_cons_cons (x y : Ival) (rest : List Ival) :
    iterintrons (x :: y :: rest) = (x.2, y.1) :: iterintrons (y :: rest) := by
  obtain ⟨x1, x2⟩ := x
  obtain ⟨y1, y2⟩ := y
  rfl

theorem iterintrons_singleton (x : Ival) : iterintrons [x] = [] := by
  obtain ⟨x1, x2⟩ := x
  rfl

theorem iterintrons_length (l : List Ival) : (iterintrons l).length = l.length - 1 := by
  induction l with
  | nil => rfl
  | cons x l ih =>
    cases l with
    | nil => rw [iterintrons_singleton]; rfl
    | cons y rest =>
      rw [iterintrons_cons_cons]
      simp only [List.length_cons, ih]
      omega

theorem iterintrons_fst_lb {x : Ival} {l : List Ival}
    (hpos : ∀ e ∈ x :: l, e.1 < e.2)
    (hchain : (x :: l).Chain' (fun a b => a.2 ≤ b.1)) :
    ∀ q ∈ iterintrons (x :: l), x.2 ≤ q.1 := by
  induction l generalizing x with
  | nil =>
    intro q hq
    rw [iterintrons_singleton] at hq
    simp at hq
  | cons y rest ih =>
    intro q hq
    rw [iterintrons_cons_cons] at hq
    have hxy : x.2 ≤ y.1 := (List.chain'_cons.mp hchain).1
    rcases List.mem_cons.mp hq with rfl | hq
    · exact le_refl _
    · have hy2 := ih (fun e he => hpos e (List.mem_cons_of_mem _ he))
        (List.chain'_cons.mp hchain).2 q hq
      have hy : y.1 < y.2 := hpos y (by simp)
      omega

theorem iterintrons_pairwise {l : List Ival}
    (hpos : ∀ e ∈ l, e.1 < e.2)
    (hchain : l.Chain' (fun a b => a.2 ≤ b.1)) :
    (iterintrons l).Pairwise (fun p q => p.1 < q.1 ∧ p.2 ≤ q.1) := by
  induction l with
  | nil => exact List.Pairwise.nil
  | cons x l ih =>
    cases l with
    | nil => rw [iterintrons_singleton]; exact List.Pairwise.nil
    | cons y rest =>
      rw [iterintrons_cons_cons]
      refine List.pairwise_cons.mpr ⟨?_, ?_⟩
      · intro q hq
        have hyq := iterintrons_fst_lb (fun e he => hpos e (List.mem_cons_of_mem _ he))
          (List.chain'_cons.mp hchain).2 q hq
        have hy : y.1 < y.2 := hpos y (by simp)
        have hxy : x.2 ≤ y.1 := (List.chain'_cons.mp hchain).1
        constructor
        · omega
        · omega
      · exact ih (fun e he => hpos e (List.mem_cons_of_mem _ he))
          (List.chain'_cons.mp hchain).2

theorem iterintrons_mem_coords {l : List Ival} :
    ∀ q ∈ iterintrons l,
      q.1 ∈ l.flatMap (fun e => [e.1, e.2]) ∧ q.2 ∈ l.flatMap (fun e => [e.1, e.2]) := by
  induction l with
  | nil =>
    intro q hq
    simp [iterintrons] at hq
  | cons x l ih =>
    cases l with
    | nil =>
      intro q hq
      rw [iterintrons_singleton] at hq
      simp at hq
    | cons y rest =>
      intro q hq
      rw [iterintrons_cons_cons] at hq
      rcases List.mem_cons.mp hq with rfl | hq
      · constructor
        · exact List.mem_flatMap.mpr ⟨x, by simp, by simp⟩
        · exact List.mem_flatMap.mpr ⟨y, by simp, by simp⟩
      · obtain ⟨h1, h2⟩ := ih q hq
        constructor
        · rcases List.mem_flatMap.mp h1 with ⟨e, he, hqe⟩
          exact List.mem_flatMap.mpr ⟨e, List.mem_cons_of_mem _ he, hqe⟩
        · rcases List.mem_flatMap.mp h2 with ⟨e, he, hqe⟩
          exact List.mem_flatMap.mpr ⟨e, List.mem_cons_of_mem _ he, hqe⟩

theorem transcript_introns_length (t : Transcript) :
    (transcript_introns t).length = t.exons.length - 1 := by
  rw [transcript_introns, List.length_map, iterintrons_length]

theorem transcript_introns_pairwise {t : Transcript} (hwf : WFTranscript t) :
    (transcript_introns t).Pairwise (fun i j => i.2.1 < j.2.1 ∧ i.2.2 ≤ j.2.1) := by
  rw [transcript_introns, List.pairwise_map]
  exact iterintrons_pairwise hwf.2.1 (exons_sorted_chain' _ hwf.2.2)

theorem transcript_introns_nodup {t : Transcript} (hwf : WFTranscript t) :
    (transcript_introns t).Nodup := by
  refine (transcript_introns_pairwise hwf).imp ?_
  rintro i j ⟨hlt, _⟩ rfl
  exact lt_irrefl _ hlt

theorem transcript_introns_mem_coords {t : Transcript} {i : IntronKey}
    (hi : i ∈ transcript_introns t) :
    i.2.1 ∈ exon_coords t ∧ i.2.2 ∈ exon_coords t := by
  rw [transcript_introns, List.mem_map] at hi
  obtain ⟨q, hq, rfl⟩ := hi
  exact iterintrons_mem_coords q hq

theorem countP_overlap_le_one {ts : List Transcript} {t r : Transcript} {n : Ival}
    (hwf : WFLocus ts) (ht : t ∈ ts) (hr : r ∈ ts)
    (hn : n ∈ split_exons t (find_exon_boundaries ts)) :
    (transcript_introns r).countP (fun i => node_overlaps n i) ≤ 1 := by
  by_contra hcon
  push_neg at hcon
  have hlen : 2 ≤ ((transcript_introns r).filter (fun i => node_overlaps n i)).length := by
    rw [← List.countP_eq_length_filter]
    omega
  have hpairf : ((transcript_introns r).filter (fun i => node_overlaps n i)).Pairwise
      (fun i j => i.2.1 < j.2.1 ∧ i.2.2 ≤ j.2.1) :=
    List.Pairwise.filter _ (transcript_introns_pairwise (hwf r hr))
  rcases hflc : (transcript_introns r).filter (fun i => node_overlaps n i) with
    _ | ⟨p, _ | ⟨q, rest⟩⟩
  · rw [hflc] at hlen; simp at hlen
  · rw [hflc] at hlen; simp at hlen
  · rw [hflc] at hpairf
    have hpq : p.2.1 < q.2.1 ∧ p.2.2 ≤ q.2.1 :=
      (List.pairwise_cons.mp hpairf).1 q (by simp)
    have hpmem : p ∈ (transcript_introns r).filter (fun i => node_overlaps n i) := by
      rw [hflc]; simp
    have hqmem : q ∈ (transcript_introns r).filter (fun i => node_overlaps n i) := by
      rw [hflc]; simp
    have hpo : node_overlaps n p = true := List.of_mem_filter hpmem
    have hqo : node_overlaps n q = true := List.of_mem_filter hqmem
    have hpmem' : p ∈ transcript_introns r := List.mem_of_mem_filter hpmem
    have hb : p.2.2 ∈ find_exon_boundaries ts :=
      mem_boundaries.mpr ⟨r, hr, (transcript_introns_mem_coords hpmem').2⟩
    simp only [node_overlaps, Bool.and_eq_true, decide_eq_true_eq] at hpo hqo
    refine split_exons_not_inside (hwf t ht) (boundaries_sorted ts) n hn p.2.2 hb ⟨?_, ?_⟩
    · exact hpo.1
    · exact lt_of_le_of_lt hpq.2 hqo.2

/-! ### Accumulator characterization and the classifier lemma -/

theorem mem_exonic_hits {bo : List ℕ} {t r : Transcript} {x : Ival} :
    x ∈ exonic_hits bo t r ↔
      x ∈ split_exons t bo ∧ 0 < (split_exons r bo).count x := by
  exact mem_flatMap_replicate

theorem mem_intronic_hits {bo : List ℕ} {t r : Transcript} {x : Ival} :
    x ∈ intronic_hits bo t r ↔
      x ∈ split_exons t bo ∧
        0 < (transcript_introns r).countP (fun i => node_overlaps x i) := by
  exact mem_flatMap_replicate

theorem mem_shared_intron_hits {t r : Transcript} {i : IntronKey} :
    i ∈ shared_intron_hits t r ↔
      i ∈ transcript_introns t ∧ 0 < (transcript_introns r).count i := by
  exact mem_flatMap_replicate

theorem bp_eq_zero_iff {l : List Ival} (hpos : ∀ n ∈ l, 0 < n.2 - n.1) :
    bp l = 0 ↔ l = [] := by
  constructor
  · intro h
    cases hl : l with
    | nil => rfl
    | cons n rest =>
      exfalso
      rw [hl] at h
      simp only [bp, List.map_cons, List.sum_cons] at h
      have := hpos n (by rw [hl]; exact List.mem_cons_self _ _)
      omega
  · intro h
    rw [h]
    rfl

theorem intronic_hits_complete_iff {ts : List Transcript} {t r : Transcript}
    (hwf : WFLocus ts) (ht : t ∈ ts) (hr : r ∈ ts) :
    (intronic_hits (find_exon_boundaries ts) t r).length =
        (split_exons t (find_exon_boundaries ts)).length ↔
      ∀ n ∈ split_exons t (find_exon_boundaries ts),
        n ∈ intronic_hits (find_exon_boundaries ts) t r := by
  have hle : ∀ n ∈ split_exons t (find_exon_boundaries ts),
      (transcript_introns r).countP (fun i => node_overlaps n i) ≤ 1 :=
    fun n hn => countP_overlap_le_one hwf ht hr hn
  rw [intronic_hits, length_flatMap_replicate, sum_map_eq_length_iff _ _ hle]
  constructor
  · intro h n hn
    exact mem_intronic_hits.mpr ⟨hn, by rw [h n hn]; omega⟩
  · intro h n hn
    have := (mem_intronic_hits.mp (h n hn)).2
    have := hle n hn
    omega

theorem accumulate_nonempty_intronic {ts : List Transcript} {t r : Transcript}
    (hwf : WFLocus ts) (ht : t ∈ ts)
    (hne : (accumulate_match (find_exon_boundaries ts) t r).nonempty = true)
    (hsp : (accumulate_match (find_exon_boundaries ts) t r).splicing = false)
    (hin : (accumulate_match (find_exon_boundaries ts) t r).introns.length = 0)
    (hbs : bp (accumulate_match (find_exon_boundaries ts) t r).same_nodes = 0)
    (hbo : bp (accumulate_match (find_exon_boundaries ts) t r).opp_nodes = 0) :
    (accumulate_match (find_exon_boundaries ts) t r).same_nodes = [] ∧
    (accumulate_match (find_exon_boundaries ts) t r).opp_nodes = [] ∧
    0 < (accumulate_match (find_exon_boundaries ts) t r).intronic_same_nodes.length +
        (accumulate_match (find_exon_boundaries ts) t r).intronic_opp_nodes.length := by
  have hsorted := boundaries_sorted ts
  have hwt : WFTranscript t := hwf t ht
  have hpos := split_exons_pos hwt hsorted
  have hsub : ∀ x ∈ (accumulate_match (find_exon_boundaries ts) t r).same_nodes,
      0 < x.2 - x.1 := by
    intro x hx
    simp only [accumulate_match] at hx
    by_cases hc : cmp_strand t.strand r.strand = true
    · rw [if_pos hc] at hx
      exact hpos x (mem_exonic_hits.mp hx).1
    · rw [if_neg hc] at hx
      simp at hx
  have hsub' : ∀ x ∈ (accumulate_match (find_exon_boundaries ts) t r).opp_nodes,
      0 < x.2 - x.1 := by
    intro x hx
    simp only [accumulate_match] at hx
    by_cases hc : cmp_strand t.strand r.strand = true
    · rw [if_pos hc] at hx
      simp at hx
    · rw [if_neg hc] at hx
      exact hpos x (mem_exonic_hits.mp hx).1
  have hsn : (accumulate_match (find_exon_boundaries ts) t r).same_nodes = [] :=
    (bp_eq_zero_iff hsub).mp hbs
  have hon : (accumulate_match (find_exon_boundaries ts) t r).opp_nodes = [] :=
    (bp_eq_zero_iff hsub').mp hbo
  refine ⟨hsn, hon, ?_⟩
  have hinx : (accumulate_match (find_exon_boundaries ts) t r).introns = [] :=
    List.length_eq_zero.mp hin
  have := hne
  simp only [Match.nonempty, hsn, hon, hinx, hsp, List.isEmpty_nil, Bool.not_true,
    Bool.or_false, Bool.false_or, Bool.not_eq_true', Bool.or_eq_true,
    Bool.not_eq_true] at this
  rcases this with h | h
  · have : (accumulate_match (find_exon_boundaries ts) t r).intronic_same_nodes ≠ [] := by
      intro habs
      rw [habs] at h
      simp at h
    have := List.length_pos.mpr this
    omega
  · have : (accumulate_match (find_exon_boundaries ts) t r).intronic_opp_nodes ≠ [] := by
      intro habs
      rw [habs] at h
      simp at h
    have := List.length_pos.mpr this
    omega

theorem accumulate_intronic_complete_iff {ts : List Transcript} {t r : Transcript}
    (hwf : WFLocus ts) (ht : t ∈ ts) (hr : r ∈ ts) :
    ((accumulate_match (find_exon_boundaries ts) t r).intronic_same_nodes.length +
      (accumulate_match (find_exon_boundaries ts) t r).intronic_opp_nodes.length =
        (split_exons t (find_exon_boundaries ts)).length) ↔
      ∀ n ∈ split_exons t (find_exon_boundaries ts),
        n ∈ (accumulate_match (find_exon_boundaries ts) t r).intronic_same_nodes ∨
        n ∈ (accumulate_match (find_exon_boundaries ts) t r).intronic_opp_nodes := by
  simp only [accumulate_match]
  by_cases hc : cmp_strand t.strand r.strand = true
  · simp only [if_pos hc, List.length_nil, Nat.add_zero, List.not_mem_nil, or_false]
    exact intronic_hits_complete_iff hwf ht hr
  · simp only [if_neg hc, List.length_nil, Nat.zero_add, List.not_mem_nil, false_or]
    exact intronic_hits_complete_iff hwf ht hr

theorem decide_category_eq_spec {ts : List Transcript} {t r : Transcript}
    (hwf : WFLocus ts) (ht : t ∈ ts) (hr : r ∈ ts)
    (hne : (accumulate_match (find_exon_boundaries ts) t r).nonempty = true) :
    decide_category (accumulate_match (find_exon_boundaries ts) t r)
        (split_exons t (find_exon_boundaries ts)).length =
      Except.ok (spec_category (accumulate_match (find_exon_boundaries ts) t r)
        (split_exons t (find_exon_boundaries ts))) := by
  have hiff := accumulate_intronic_complete_iff hwf ht hr
  set m := accumulate_match (find_exon_boundaries ts) t r with hm
  set tn := split_exons t (find_exon_boundaries ts) with htn
  unfold decide_category spec_category
  by_cases h1 : m.splicing = true ∨ 0 < m.introns.length ∨ 0 < bp m.same_nodes
  · have hb1 : (m.splicing || decide (0 < m.introns.length) ||
        decide (0 < bp m.same_nodes)) = true := by
      rcases h1 with h | h | h <;> simp [h]
    rw [if_pos hb1, if_pos h1]
  · have ha := (not_or.mp h1).1
    have hb := (not_or.mp (not_or.mp h1).2).1
    have hc := (not_or.mp (not_or.mp h1).2).2
    have hsp : m.splicing = false := by
      cases hflag : m.splicing
      · rfl
      · exact absurd hflag ha
    have hb1 : ¬ (m.splicing || decide (0 < m.introns.length) ||
        decide (0 < bp m.same_nodes)) = true := by
      simp [hsp, hb, hc]
    rw [if_neg hb1, if_neg h1]
    by_cases h2 : 0 < bp m.opp_nodes
    · rw [if_pos h2, if_pos h2]
    · rw [if_neg h2, if_neg h2]
      have hbs : bp m.same_nodes = 0 := Nat.eq_zero_of_not_pos hc
      have hbo2 : bp m.opp_nodes = 0 := Nat.eq_zero_of_not_pos h2
      have hin0 : m.introns.length = 0 := Nat.eq_zero_of_not_pos hb
      obtain ⟨hsn, hon, hni⟩ :=
        accumulate_nonempty_intronic hwf ht hne hsp hin0 hbs hbo2
      rw [← hm] at hsn hon hni
      have hsl : ¬ m.same_nodes.length ≠ 0 := by simp [hsn]
      have hol : ¬ m.opp_nodes.length ≠ 0 := by simp [hon]
      rw [if_neg hsl, if_neg hol]
      have hniz : ¬ (m.intronic_same_nodes.length + m.intronic_opp_nodes.length = 0) := by
        omega
      rw [if_neg hniz]
      by_cases h3 : m.intronic_same_nodes.length + m.intronic_opp_nodes.length = tn.length
      · rw [if_pos h3, if_pos (hiff.mp h3)]
        by_cases h4 : 0 < m.intronic_same_nodes.length
        · rw [if_pos h4, if_pos (List.length_pos.mp h4)]
        · rw [if_neg h4, if_neg (fun hne2 => h4 (List.length_pos.mpr hne2))]
      · rw [if_neg h3, if_neg (fun hall => h3 (hiff.mpr hall))]
        by_cases h4 : 0 < m.intronic_same_nodes.length
        · rw [if_pos h4, if_pos (List.length_pos.mp h4)]
        · rw [if_neg h4, if_neg (fun hne2 => h4 (List.length_pos.mpr hne2))]

theorem locus_match_stats_mem {ts : List Transcript} {t : Transcript}
    {stats : List MatchStats}
    (hok : locus_match_stats ts t = Except.ok stats) {ms : MatchStats}
    (hms : ms ∈ stats) :
    ∃ i r c, r ∈ ref_transcripts ts ∧
      (accumulate_match (find_exon_boundaries ts) t r).nonempty = true ∧
      decide_category (accumulate_match (find_exon_boundaries ts) t r)
        (split_exons t (find_exon_boundaries ts)).length = Except.ok c ∧
      ms = make_match_stats i t r (accumulate_match (find_exon_boundaries ts) t r) c := by
  simp only [locus_match_stats] at hok
  obtain ⟨x, hx, hfx⟩ := mapExcept_ok_mem hok hms
  obtain ⟨i, r, m⟩ := x
  have hrm := mem_with_oids hx
  obtain ⟨r', hr', hf⟩ := List.mem_filterMap.mp hrm
  by_cases hne : (accumulate_match (find_exon_boundaries ts) t r').nonempty = true
  · rw [if_pos hne] at hf
    have hsome := Option.some.inj hf
    have h2a : r' = r := congrArg Prod.fst hsome
    have h2b : accumulate_match (find_exon_boundaries ts) t r' = m :=
      congrArg Prod.snd hsome
    subst h2a
    subst h2b
    simp only at hfx
    cases hdc : decide_category (accumulate_match (find_exon_boundaries ts) t r')
        (split_exons t (find_exon_boundaries ts)).length with
    | error e =>
      rw [hdc] at hfx
      exact absurd hfx (by simp [Except.map])
    | ok c =>
      rw [hdc] at hfx
      simp only [Except.map, Except.ok.injEq] at hfx
      exact ⟨i, r', c, hr', hne, hdc, hfx.symm⟩
  · rw [if_neg hne] at hf
    cases hf

theorem locus_match_stats_surj {ts : List Transcript} {t r : Transcript}
    {stats : List MatchStats}
    (hok : locus_match_stats ts t = Except.ok stats)
    (hr : r ∈ ref_transcripts ts)
    (hne : (accumulate_match (find_exon_boundaries ts) t r).nonempty = true) :
    ∃ ms ∈ stats, ∃ i c,
      ms = make_match_stats i t r (accumulate_match (find_exon_boundaries ts) t r) c := by
  simp only [locus_match_stats] at hok
  have hpair : (r, accumulate_match (find_exon_boundaries ts) t r) ∈
      (ref_transcripts ts).filterMap (fun r' =>
        let m := accumulate_match (find_exon_boundaries ts) t r'
        if m.nonempty then some (r', m) else none) := by
    apply List.mem_filterMap.mpr
    exact ⟨r, hr, by simp only; rw [if_pos hne]⟩
  obtain ⟨i, hi⟩ := with_oids_of_mem hpair 0
  obtain ⟨ms, hms, hfx⟩ := mapExcept_ok_forall hok hi
  refine ⟨ms, hms, i, ?_⟩
  simp only at hfx
  cases hdc : decide_category (accumulate_match (find_exon_boundaries ts) t r)
      (split_exons t (find_exon_boundaries ts)).length with
  | error e =>
    rw [hdc] at hfx
    exact absurd hfx (by simp [Except.map])
  | ok c =>
    rw [hdc] at hfx
    simp only [Except.map, Except.ok.injEq] at hfx
    exact ⟨c, hfx.symm⟩

theorem shared_intron_hits_le {t r : Transcript}
    (hwt : WFTranscript t) (hwr : WFTranscript r) :
    (shared_intron_hits t r).length ≤ (transcript_introns t).length ∧
    (shared_intron_hits t r).length ≤ (transcript_introns r).length := by
  have hlen : (shared_intron_hits t r).length =
      ((transcript_introns t).map
        (fun i => (transcript_introns r).countP (fun x => decide (x = i)))).sum := by
    rw [shared_intron_hits, length_flatMap_replicate]
    congr 1
    exact List.map_congr_left (fun i _ => count_eq_countP_decide i _)
  constructor
  · rw [hlen]
    exact sum_map_le_length _ _ (fun i _ =>
      nodup_countP_le_one (transcript_introns_nodup hwr) i)
  · rw [hlen, sum_map_countP_eq (transcript_introns_nodup hwt)]
    exact List.countP_le_length _

/-! ### Best-match selector lemmas -/

theorem sort_desc_head {lst : List MatchStats} (hne : lst ≠ []) :
    ∃ hit rest, sort_desc lst = hit :: rest ∧ hit ∈ lst ∧
      ∀ x ∈ lst, full_key x ≤ full_key hit := by
  have hperm := List.perm_insertionSort desc_le lst
  have hsorted := List.sorted_insertionSort desc_le lst
  cases hs : List.insertionSort desc_le lst with
  | nil =>
    rw [hs] at hperm
    exact absurd hperm.symm.eq_nil hne
  | cons hit rest =>
    rw [hs] at hperm hsorted
    refine ⟨hit, rest, hs, hperm.subset (List.mem_cons_self _ _), ?_⟩
    intro x hx
    have hx' : x ∈ hit :: rest := hperm.symm.subset hx
    rcases List.mem_cons.mp hx' with rfl | hx'
    · exact le_refl _
    · exact (List.pairwise_cons.mp hsorted).1 x hx'

theorem rank_key_le_of_full {a b : MatchStats} (h : full_key a ≤ full_key b) :
    rank_key a ≤ rank_key b := by
  rw [full_key, full_key, Prod.Lex.le_iff] at h
  rcases h with h | h
  · exact le_of_lt h
  · exact le_of_eq h.1

theorem full_key_inj_oid {a b : MatchStats} (h : full_key a = full_key b) :
    a.oid = b.oid := by
  have := toLex.injective h
  exact congrArg Prod.snd this

theorem choose_best_eq {lst : List MatchStats} {hit : MatchStats}
    {rest : List MatchStats} (hs : sort_desc lst = hit :: rest) :
    MatchStats.choose_best lst =
      some (if hit.category = Category.SAME_STRAND ∧
            1 < (same_strand_gene_ids lst).length then
        { hit with category := Category.READ_THROUGH } else hit) := by
  by_cases hc : hit.category = Category.SAME_STRAND ∧
      1 < (same_strand_gene_ids lst).length
  · simp [MatchStats.choose_best, MatchStats.choose_best_full, hs, hc]
  · simp [MatchStats.choose_best, MatchStats.choose_best_full, hs, hc]

theorem choose_best_full_snd_eq {lst : List MatchStats} {hit : MatchStats}
    {rest : List MatchStats} (hs : sort_desc lst = hit :: rest) :
    (MatchStats.choose_best_full lst).2 =
      if hit.category = Category.SAME_STRAND ∧
          1 < (same_strand_gene_ids lst).length then
        lst.map (fun m => if m.oid = hit.oid then
          { m with category := Category.READ_THROUGH } else m)
      else lst := by
  by_cases hc : hit.category = Category.SAME_STRAND ∧
      1 < (same_strand_gene_ids lst).length
  · simp [MatchStats.choose_best_full, hs, hc]
  · simp [MatchStats.choose_best_full, hs, hc]

theorem same_strand_gene_ids_perm {lst1 lst2 : List MatchStats}
    (hperm : lst1.Perm lst2) :
    (same_strand_gene_ids lst1).length = (same_strand_gene_ids lst2).length :=
  (((hperm.filter _).map _).dedup).length_eq

theorem transcript_introns_nil {t : Transcript} (h : t.exons.length ≤ 1) :
    transcript_introns t = [] := by
  rw [transcript_introns]
  have hit : iterintrons t.exons = [] := by
    cases hx : t.exons with
    | nil => rfl
    | cons e l =>
      cases l with
      | nil => exact iterintrons_singleton e
      | cons e2 l2 => rw [hx] at h; simp at h
  rw [hit]
  rfl

/-! ### The claims -/

/-- C1: for every (test, reference) pair emitted by `compare_locus` with
a non-empty match accumulator, the category recorded on the emitted
`MatchStats` is decided by the spec's fixed precedence (`spec_category`):
SAME_STRAND on shared splicing, shared introns or same-strand shared bp;
else OPP_STRAND on opposite-strand shared bp; else INTRONIC_* when every
node of the test transcript fell in an intronic bucket (same-strand
variant iff some intronic-bucketed node was same-strand), and
INTERLEAVING_* by the same rule when only some nodes did. -/
theorem C1_category_precedence (ts : List Transcript) (hwf : WFLocus ts)
    (t : Transcript) (ht : t ∈ test_transcripts ts)
    (stats : List MatchStats) (hok : locus_match_stats ts t = Except.ok stats)
    (ms : MatchStats) (hms : ms ∈ stats) :
    ∃ r ∈ ref_transcripts ts,
      (accumulate_match (find_exon_boundaries ts) t r).nonempty = true ∧
      ms.category = spec_category (accumulate_match (find_exon_boundaries ts) t r)
        (split_exons t (find_exon_boundaries ts)) := by
  obtain ⟨i, r, c, hr, hne, hdc, hmseq⟩ := locus_match_stats_mem hok hms
  have ht' : t ∈ ts := List.mem_of_mem_filter ht
  have hr' : r ∈ ts := List.mem_of_mem_filter hr
  have hspec := decide_category_eq_spec hwf ht' hr' hne
  rw [hdc] at hspec
  have hc : c = spec_category (accumulate_match (find_exon_boundaries ts) t r)
      (split_exons t (find_exon_boundaries ts)) := Except.ok.inj hspec
  refine ⟨r, hr, hne, ?_⟩
  rw [hmseq]
  show c = _
  exact hc

/-- C1 witness: the exact two-exon match locus. -/
theorem C1_category_precedence_witness :
    WFLocus exLocus ∧
    ∃ r ∈ ref_transcripts exLocus,
      (accumulate_match (find_exon_boundaries exLocus) exTest r).nonempty = true ∧
      exMS.category = spec_category
        (accumulate_match (find_exon_boundaries exLocus) exTest r)
        (split_exons exTest (find_exon_boundaries exLocus)) :=
  ⟨by decide,
   C1_category_precedence exLocus (by decide) exTest (by decide) [exMS] (by rfl)
     exMS (by simp)⟩

/-- C8: (1) on any well-formed locus, a pair reaching the no-exonic-overlap
branch (no shared splicing, no shared introns, zero shared bp on both
strands) with a non-empty accumulator always has empty exonic buckets and
at least one intronic-bucketed node, so the source's assertions pass; and
(2) a pair in that branch with zero same-strand, zero opposite-strand and
zero intronic-bucketed nodes makes the classifier fail loudly with an
assertion-style error rather than silently assigning a category. -/
theorem C8_assert_invariant :
    (∀ ts : List Transcript, WFLocus ts → ∀ t ∈ ts, ∀ r ∈ ts,
      (accumulate_match (find_exon_boundaries ts) t r).nonempty = true →
      (accumulate_match (find_exon_boundaries ts) t r).splicing = false →
      (accumulate_match (find_exon_boundaries ts) t r).introns.length = 0 →
      bp (accumulate_match (find_exon_boundaries ts) t r).same_nodes = 0 →
      bp (accumulate_match (find_exon_boundaries ts) t r).opp_nodes = 0 →
      (accumulate_match (find_exon_boundaries ts) t r).same_nodes = [] ∧
      (accumulate_match (find_exon_boundaries ts) t r).opp_nodes = [] ∧
      0 < (accumulate_match (find_exon_boundaries ts) t r).intronic_same_nodes.length +
          (accumulate_match (find_exon_boundaries ts) t r).intronic_opp_nodes.length) ∧
    (∀ num_nodes : ℕ,
      decide_category (Match.mk [] [] [] [] [] false) num_nodes =
        Except.error "assert num_intronic > 0 failed") := by
  constructor
  · intro ts hwf t ht r _ hne hsp hin hbs hbo
    exact accumulate_nonempty_intronic hwf ht hne hsp hin hbs hbo
  · intro num_nodes
    rfl

/-- C8 witness: the intronic-containment locus reaches the branch and has
an intronic-bucketed node; the all-empty accumulator errors. -/
theorem C8_assert_invariant_witness :
    ((accumulate_match (find_exon_boundaries inLocus) inT inR).same_nodes = [] ∧
     (accumulate_match (find_exon_boundaries inLocus) inT inR).opp_nodes = [] ∧
     0 < (accumulate_match (find_exon_boundaries inLocus) inT inR).intronic_same_nodes.length +
         (accumulate_match (find_exon_boundaries inLocus) inT inR).intronic_opp_nodes.length) ∧
    decide_category (Match.mk [] [] [] [] [] false) 5 =
      Except.error "assert num_intronic > 0 failed" :=
  ⟨C8_assert_invariant.1 inLocus (by decide) inT (by decide) inR (by decide)
     (by decide) (by decide) (by decide) (by decide) (by decide),
   C8_assert_invariant.2 5⟩

/-- C9: for every `MatchStats` emitted by `compare_locus` on a
well-formed locus, the shared intron count is at most the test
transcript's intron count and at most the reference's intron count, so
whenever `total_introns = num_introns + ref_num_introns` is non-zero the
unguarded denominator `total_introns - shared_introns` of `intron_frac`
is non-zero: the division in `choose_best` cannot divide by zero. -/
theorem C9_intron_frac_denominator (ts : List Transcript) (hwf : WFLocus ts)
    (t : Transcript) (ht : t ∈ test_transcripts ts)
    (stats : List MatchStats) (hok : locus_match_stats ts t = Except.ok stats)
    (ms : MatchStats) (hms : ms ∈ stats) :
    ms.shared_introns ≤ ms.num_introns ∧
    ms.shared_introns ≤ ms.ref_num_introns ∧
    (ms.num_introns + ms.ref_num_introns ≠ 0 →
      ms.shared_introns < ms.num_introns + ms.ref_num_introns) := by
  obtain ⟨i, r, c, hr, hne, hdc, hmseq⟩ := locus_match_stats_mem hok hms
  have hwt : WFTranscript t := hwf t (List.mem_of_mem_filter ht)
  have hwr : WFTranscript r := hwf r (List.mem_of_mem_filter hr)
  obtain ⟨h1, h2⟩ := shared_intron_hits_le hwt hwr
  rw [transcript_introns_length] at h1 h2
  rw [hmseq]
  have e1 : (make_match_stats i t r (accumulate_match (find_exon_boundaries ts) t r)
      c).shared_introns = (shared_intron_hits t r).length := rfl
  have e2 : (make_match_stats i t r (accumulate_match (find_exon_boundaries ts) t r)
      c).num_introns = t.exons.length - 1 := rfl
  have e3 : (make_match_stats i t r (accumulate_match (find_exon_boundaries ts) t r)
      c).ref_num_introns = r.exons.length - 1 := rfl
  rw [e1, e2, e3]
  omega

/-- C9 witness: the exact two-exon match locus (one shared intron, two
total). -/
theorem C9_intron_frac_denominator_witness :
    exMS.shared_introns ≤ exMS.num_introns ∧
    exMS.shared_introns ≤ exMS.ref_num_introns ∧
    (exMS.num_introns + exMS.ref_num_introns ≠ 0 →
      exMS.shared_introns < exMS.num_introns + exMS.ref_num_introns) :=
  C9_intron_frac_denominator exLocus (by decide) exTest (by decide) [exMS]
    (by rfl) exMS (by simp)

/-- C10: a test transcript with zero introns (a single-exon transcript)
never gets `shared_splicing = true` on any `MatchStats` emitted by
`compare_locus` for it, even against an identical single-exon reference:
empty splicing patterns are neither indexed nor compared. -/
theorem C10_single_exon_no_splicing (ts : List Transcript)
    (t : Transcript) (ht : t ∈ test_transcripts ts)
    (hsingle : t.exons.length ≤ 1)
    (stats : List MatchStats) (hok : locus_match_stats ts t = Except.ok stats)
    (ms : MatchStats) (hms : ms ∈ stats) :
    ms.shared_splicing = false := by
  obtain ⟨i, r, c, hr, hne, hdc, hmseq⟩ := locus_match_stats_mem hok hms
  rw [hmseq]
  have e1 : (make_match_stats i t r (accumulate_match (find_exon_boundaries ts) t r)
      c).shared_splicing = (accumulate_match (find_exon_boundaries ts) t r).splicing :=
    rfl
  rw [e1]
  have hti : transcript_introns t = [] := transcript_introns_nil hsingle
  simp only [accumulate_match, hti]
  simp

/-- C10 witness: the read-through locus, whose test transcript is
single-exon and coordinate-identical to a single-exon reference. -/
theorem C10_single_exon_no_splicing_witness :
    rtMS0.shared_splicing = false :=
  C10_single_exon_no_splicing rtLocus rtT (by decide) (by decide)
    [rtMS0, rtMS1] (by rfl) rtMS0 (by simp)

/-- C2: for every non-empty candidate list, `choose_best` returns a
candidate whose 12-component ranking key `(shared_splicing, intron_frac,
same_strand_frac, opp_strand_frac, category indicators, -abs distance)`
is lexicographically maximal over the list (the returned record may
additionally carry the read-through relabel). -/
theorem C2_choose_best_max (lst : List MatchStats) (hne : lst ≠ []) :
    ∃ m ∈ lst, (∀ x ∈ lst, rank_key x ≤ rank_key m) ∧
      (MatchStats.choose_best lst = some m ∨
       MatchStats.choose_best lst = some { m with category := Category.READ_THROUGH }) := by
  obtain ⟨hit, rest, hs, hmem, hmax⟩ := sort_desc_head hne
  refine ⟨hit, hmem, fun x hx => rank_key_le_of_full (hmax x hx), ?_⟩
  rw [choose_best_eq hs]
  by_cases hc : hit.category = Category.SAME_STRAND ∧
      1 < (same_strand_gene_ids lst).length
  · right
    rw [if_pos hc]
  · left
    rw [if_neg hc]

/-- C2 witness: the two-candidate read-through list. -/
theorem C2_choose_best_max_witness :
    ∃ m ∈ [rtMS0, rtMS1], (∀ x ∈ [rtMS0, rtMS1], rank_key x ≤ rank_key m) ∧
      (MatchStats.choose_best [rtMS0, rtMS1] = some m ∨
       MatchStats.choose_best [rtMS0, rtMS1] =
         some { m with category := Category.READ_THROUGH }) :=
  C2_choose_best_max [rtMS0, rtMS1] (by decide)

/-- C4: `choose_best` is permutation-invariant: on two permuted candidate
lists whose elements are distinct objects (pairwise-distinct `oid`s, as
holds for the freshly allocated `MatchStats` of one call site), the
returned best match is the identical record. -/
theorem C4_choose_best_perm_invariant (lst1 lst2 : List MatchStats)
    (hperm : lst1.Perm lst2)
    (hnodup : (lst1.map (fun m => m.oid)).Nodup) :
    MatchStats.choose_best lst1 = MatchStats.choose_best lst2 := by
  rcases hl : lst1 with _ | ⟨a, l⟩
  · subst hl
    have hl2 : lst2 = [] := hperm.nil_eq.symm
    subst hl2
    rfl
  · have hne1 : lst1 ≠ [] := by rw [hl]; simp
    rw [← hl]
    have hne2 : lst2 ≠ [] := by
      intro habs
      subst habs
      exact hne1 hperm.eq_nil
    obtain ⟨h1, r1, hs1, hm1, hmax1⟩ := sort_desc_head hne1
    obtain ⟨h2, r2, hs2, hm2, hmax2⟩ := sort_desc_head hne2
    have hm2' : h2 ∈ lst1 := hperm.symm.subset hm2
    have hm1' : h1 ∈ lst2 := hperm.subset hm1
    have hkeq : full_key h1 = full_key h2 :=
      le_antisymm (hmax2 h1 hm1') (hmax1 h2 hm2')
    have h12 : h1 = h2 :=
      List.inj_on_of_nodup_map hnodup hm1 hm2' (full_key_inj_oid hkeq)
    rw [choose_best_eq hs1, choose_best_eq hs2, h12,
      same_strand_gene_ids_perm hperm]

/-- C4 witness: the two orders of the read-through candidate list. -/
theorem C4_choose_best_perm_invariant_witness :
    MatchStats.choose_best [rtMS0, rtMS1] = MatchStats.choose_best [rtMS1, rtMS0] :=
  C4_choose_best_perm_invariant [rtMS0, rtMS1] [rtMS1, rtMS0] (by decide) (by decide)

/-- C6: for candidate lists as passed by the program (never already
READ_THROUGH), the returned match's category is READ_THROUGH iff the
selected winner's category is SAME_STRAND and at least two distinct
reference gene ids appear among the SAME_STRAND candidates of the list;
otherwise the winner is returned unchanged. -/
theorem C6_read_through_relabel (lst : List MatchStats) (hne : lst ≠ [])
    (hnr : ∀ m ∈ lst, m.category ≠ Category.READ_THROUGH) :
    ∃ hit ∈ lst, (∀ x ∈ lst, full_key x ≤ full_key hit) ∧
      ∀ res, MatchStats.choose_best lst = some res →
        ((res.category = Category.READ_THROUGH ↔
          (hit.category = Category.SAME_STRAND ∧
           1 < (same_strand_gene_ids lst).length)) ∧
         (¬(hit.category = Category.SAME_STRAND ∧
            1 < (same_strand_gene_ids lst).length) → res = hit)) := by
  obtain ⟨hit, rest, hs, hmem, hmax⟩ := sort_desc_head hne
  refine ⟨hit, hmem, hmax, ?_⟩
  intro res hres
  rw [choose_best_eq hs] at hres
  by_cases hc : hit.category = Category.SAME_STRAND ∧
      1 < (same_strand_gene_ids lst).length
  · rw [if_pos hc] at hres
    have hr : res = { hit with category := Category.READ_THROUGH } :=
      (Option.some.inj hres).symm
    subst hr
    exact ⟨⟨fun _ => hc, fun _ => rfl⟩, fun hnc => absurd hc hnc⟩
  · rw [if_neg hc] at hres
    have hr : res = hit := (Option.some.inj hres).symm
    refine ⟨⟨fun hrt => ?_, fun hc' => absurd hc' hc⟩, fun _ => hr⟩
    rw [hr] at hrt
    exact absurd hrt (hnr hit hmem)

/-- C6 witness: the two-candidate read-through list. -/
theorem C6_read_through_relabel_witness :
    ∃ hit ∈ [rtMS0, rtMS1], (∀ x ∈ [rtMS0, rtMS1], full_key x ≤ full_key hit) ∧
      ∀ res, MatchStats.choose_best [rtMS0, rtMS1] = some res →
        ((res.category = Category.READ_THROUGH ↔
          (hit.category = Category.SAME_STRAND ∧
           1 < (same_strand_gene_ids [rtMS0, rtMS1]).length)) ∧
         (¬(hit.category = Category.SAME_STRAND ∧
            1 < (same_strand_gene_ids [rtMS0, rtMS1]).length) → res = hit)) :=
  C6_read_through_relabel [rtMS0, rtMS1] (by decide) (by decide)

/-- C5 (amended): the read-through relabel mutates the winning record in
place, and since that record is aliased into the caller's detail list,
the observable detail list after `choose_best` keeps every row unchanged
except possibly the winner's, which then equals the returned summary
record with category READ_THROUGH (its classifier-assigned category was
SAME_STRAND). -/
theorem C5_relabel_aliasing (lst : List MatchStats)
    (hnodup : (lst.map (fun m => m.oid)).Nodup) :
    ((MatchStats.choose_best_full lst).2).length = lst.length ∧
    ∀ p ∈ lst.zip (MatchStats.choose_best_full lst).2,
      p.2 = p.1 ∨
      (MatchStats.choose_best lst = some p.2 ∧
       p.2 = { p.1 with category := Category.READ_THROUGH } ∧
       p.1.category = Category.SAME_STRAND) := by
  rcases hsd : sort_desc lst with _ | ⟨hit, rest⟩
  · have hperm := List.perm_insertionSort desc_le lst
    rw [show List.insertionSort desc_le lst = sort_desc lst from rfl, hsd] at hperm
    have hl : lst = [] := hperm.symm.eq_nil
    subst hl
    exact ⟨rfl, by simp⟩
  · have hperm := List.perm_insertionSort desc_le lst
    rw [show List.insertionSort desc_le lst = sort_desc lst from rfl, hsd] at hperm
    have hmem : hit ∈ lst := hperm.subset (List.mem_cons_self _ _)
    rw [choose_best_full_snd_eq hsd]
    by_cases hc : hit.category = Category.SAME_STRAND ∧
        1 < (same_strand_gene_ids lst).length
    · rw [if_pos hc]
      refine ⟨by simp, ?_⟩
      intro p hp
      have hzip : lst.zip (lst.map (fun m => if m.oid = hit.oid then
          { m with category := Category.READ_THROUGH } else m)) =
          lst.map (fun x => (x, if x.oid = hit.oid then
            { x with category := Category.READ_THROUGH } else x)) := by
        have hz := List.zip_map' id (fun m => if m.oid = hit.oid then
          { m with category := Category.READ_THROUGH } else m) lst
        simpa using hz
      rw [hzip] at hp
      obtain ⟨x, hx, rfl⟩ := List.mem_map.mp hp
      by_cases hxo : x.oid = hit.oid
      · have hx_eq : x = hit := List.inj_on_of_nodup_map hnodup hx hmem hxo
        right
        rw [if_pos hxo]
        refine ⟨?_, rfl, by rw [hx_eq]; exact hc.1⟩
        rw [choose_best_eq hsd, if_pos hc, hx_eq]
      · left
        rw [if_neg hxo]
    · rw [if_neg hc]
      refine ⟨rfl, ?_⟩
      intro p hp
      left
      have hzip : lst.zip lst = lst.map (fun x => (x, x)) := by
        have hz := List.zip_map' id id lst
        simpa using hz
      rw [hzip] at hp
      obtain ⟨x, hx, rfl⟩ := List.mem_map.mp hp
      rfl

/-- C5 (amended) witness: the two-candidate read-through list. -/
theorem C5_relabel_aliasing_witness :
    ((MatchStats.choose_best_full [rtMS0, rtMS1]).2).length = [rtMS0, rtMS1].length ∧
    ∀ p ∈ [rtMS0, rtMS1].zip (MatchStats.choose_best_full [rtMS0, rtMS1]).2,
      p.2 = p.1 ∨
      (MatchStats.choose_best [rtMS0, rtMS1] = some p.2 ∧
       p.2 = { p.1 with category := Category.READ_THROUGH } ∧
       p.1.category = Category.SAME_STRAND) :=
  C5_relabel_aliasing [rtMS0, rtMS1] (by decide)

theorem exonic_hits_ne_nil {bo : List ℕ} {t r : Transcript} :
    exonic_hits bo t r ≠ [] ↔
      ∃ n ∈ split_exons t bo, n ∈ split_exons r bo := by
  rw [exonic_hits, Ne, flatMap_replicate_eq_nil]
  push_neg
  constructor
  · rintro ⟨n, hn, hc⟩
    exact ⟨n, hn, List.count_pos_iff.mp (Nat.pos_of_ne_zero hc)⟩
  · rintro ⟨n, hn, hm⟩
    exact ⟨n, hn, Nat.pos_iff_ne_zero.mp (List.count_pos_iff.mpr hm)⟩

theorem intronic_hits_ne_nil {bo : List ℕ} {t r : Transcript} :
    intronic_hits bo t r ≠ [] ↔
      ∃ n ∈ split_exons t bo, ∃ i ∈ transcript_introns r,
        node_overlaps n i = true := by
  rw [intronic_hits, Ne, flatMap_replicate_eq_nil]
  push_neg
  constructor
  · rintro ⟨n, hn, hc⟩
    obtain ⟨i, hi, hp⟩ := List.countP_pos_iff.mp (Nat.pos_of_ne_zero hc)
    exact ⟨n, hn, i, hi, hp⟩
  · rintro ⟨n, hn, i, hi, hp⟩
    exact ⟨n, hn, Nat.pos_iff_ne_zero.mp (List.countP_pos_iff.mpr ⟨i, hi, hp⟩)⟩

theorem shared_intron_hits_ne_nil {t r : Transcript} :
    shared_intron_hits t r ≠ [] ↔
      ∃ i ∈ transcript_introns t, i ∈ transcript_introns r := by
  rw [shared_intron_hits, Ne, flatMap_replicate_eq_nil]
  push_neg
  constructor
  · rintro ⟨i, hi, hc⟩
    exact ⟨i, hi, List.count_pos_iff.mp (Nat.pos_of_ne_zero hc)⟩
  · rintro ⟨i, hi, hm⟩
    exact ⟨i, hi, Nat.pos_iff_ne_zero.mp (List.count_pos_iff.mpr hm)⟩

theorem accumulate_nonempty_iff {bo : List ℕ} {t r : Transcript} :
    (accumulate_match bo t r).nonempty = true ↔
      ((∃ n ∈ split_exons t bo, n ∈ split_exons r bo) ∨
       (∃ i ∈ transcript_introns t, i ∈ transcript_introns r) ∨
       (∃ n ∈ split_exons t bo, ∃ i ∈ transcript_introns r,
          node_overlaps n i = true)) := by
  have hstep : (accumulate_match bo t r).nonempty = true ↔
      (exonic_hits bo t r ≠ [] ∨ intronic_hits bo t r ≠ [] ∨
       shared_intron_hits t r ≠ [] ∨
       (transcript_introns t ≠ [] ∧
        transcript_introns t = transcript_introns r)) := by
    simp only [Match.nonempty, accumulate_match]
    by_cases hcmp : cmp_strand t.strand r.strand = true
    · simp only [if_pos hcmp, Bool.or_eq_true, Bool.not_eq_true',
        List.isEmpty_eq_false, List.isEmpty_nil, decide_eq_true_eq]
      constructor
      · rintro (((((h | h) | h) | h) | h) | h)
        · exact Or.inl h
        · simp at h
        · exact Or.inr (Or.inl h)
        · simp at h
        · exact Or.inr (Or.inr (Or.inl h))
        · exact Or.inr (Or.inr (Or.inr h))
      · rintro (h | h | h | h)
        · exact Or.inl (Or.inl (Or.inl (Or.inl (Or.inl h))))
        · exact Or.inl (Or.inl (Or.inl (Or.inr h)))
        · exact Or.inl (Or.inr h)
        · exact Or.inr h
    · simp only [if_neg hcmp, Bool.or_eq_true, Bool.not_eq_true',
        List.isEmpty_eq_false, List.isEmpty_nil, decide_eq_true_eq]
      constructor
      · rintro (((((h | h) | h) | h) | h) | h)
        · simp at h
        · exact Or.inl h
        · simp at h
        · exact Or.inr (Or.inl h)
        · exact Or.inr (Or.inr (Or.inl h))
        · exact Or.inr (Or.inr (Or.inr h))
      · rintro (h | h | h | h)
        · exact Or.inl (Or.inl (Or.inl (Or.inl (Or.inr h))))
        · exact Or.inl (Or.inl (Or.inr h))
        · exact Or.inl (Or.inr h)
        · exact Or.inr h
  rw [hstep]
  constructor
  · rintro (h | h | h | h)
    · exact Or.inl (exonic_hits_ne_nil.mp h)
    · exact Or.inr (Or.inr (intronic_hits_ne_nil.mp h))
    · exact Or.inr (Or.inl (shared_intron_hits_ne_nil.mp h))
    · obtain ⟨hne, heq⟩ := h
      obtain ⟨i, hi⟩ := List.exists_mem_of_ne_nil _ hne
      exact Or.inr (Or.inl ⟨i, hi, heq ▸ hi⟩)
  · rintro (h | h | h)
    · exact Or.inl (exonic_hits_ne_nil.mpr h)
    · exact Or.inr (Or.inr (Or.inl (shared_intron_hits_ne_nil.mpr h)))
    · exact Or.inr (Or.inl (intronic_hits_ne_nil.mpr h))

/-- C3 counterexample: in the intronic-containment locus, a `MatchStats`
row is emitted for the pair (inT, inR) although the test transcript
shares no exact node and no exact intron with the reference — refuting
the claim that candidates appear only for references sharing at least
one node or intron. -/
theorem C3_counterexample :
    locus_match_stats inLocus inT = Except.ok [inMS] ∧
    inMS.ref_transcript_id = inR.transcript_id ∧
    (∀ n ∈ split_exons inT (find_exon_boundaries inLocus),
      n ∉ split_exons inR (find_exon_boundaries inLocus)) ∧
    (∀ i ∈ transcript_introns inT, i ∉ transcript_introns inR) := by
  refine ⟨by rfl, by rfl, by decide, by decide⟩

/-- C3 (amended): a reference appears as a candidate for a test
transcript (a `MatchStats` row is emitted for the pair) iff the pair
shares at least one exact node, or at least one exact intron, or at
least one node of the test transcript overlaps an intron of that
reference (the intron-tree lookup also creates accumulator entries);
no other reference yields a candidate. -/
theorem C3_candidate_iff (ts : List Transcript) (t r : Transcript)
    (ht : t ∈ test_transcripts ts) (hr : r ∈ ref_transcripts ts)
    (hids : ((ref_transcripts ts).map (fun x => x.transcript_id)).Nodup)
    (stats : List MatchStats) (hok : locus_match_stats ts t = Except.ok stats) :
    (∃ ms ∈ stats, ms.ref_transcript_id = r.transcript_id) ↔
      ((∃ n ∈ split_exons t (find_exon_boundaries ts),
          n ∈ split_exons r (find_exon_boundaries ts)) ∨
       (∃ i ∈ transcript_introns t, i ∈ transcript_introns r) ∨
       (∃ n ∈ split_exons t (find_exon_boundaries ts),
          ∃ i ∈ transcript_introns r, node_overlaps n i = true)) := by
  constructor
  · rintro ⟨ms, hms, hid⟩
    obtain ⟨i, r', c, hr', hne', hdc', hmseq⟩ := locus_match_stats_mem hok hms
    have hid' : r'.transcript_id = r.transcript_id := by
      rw [hmseq] at hid
      exact hid
    have hrr : r' = r := List.inj_on_of_nodup_map hids hr' hr hid'
    rw [hrr] at hne'
    exact accumulate_nonempty_iff.mp hne'
  · intro h
    have hne : (accumulate_match (find_exon_boundaries ts) t r).nonempty = true :=
      accumulate_nonempty_iff.mpr h
    obtain ⟨ms, hms, i, c, hmseq⟩ := locus_match_stats_surj hok hr hne
    refine ⟨ms, hms, ?_⟩
    rw [hmseq]
    rfl

/-- C3 (amended) witness: the intronic-containment locus, where the
node-overlaps-intron disjunct produces the candidate. -/
theorem C3_candidate_iff_witness :
    (∃ ms ∈ [inMS], ms.ref_transcript_id = inR.transcript_id) ↔
      ((∃ n ∈ split_exons inT (find_exon_boundaries inLocus),
          n ∈ split_exons inR (find_exon_boundaries inLocus)) ∨
       (∃ i ∈ transcript_introns inT, i ∈ transcript_introns inR) ∨
       (∃ n ∈ split_exons inT (find_exon_boundaries inLocus),
          ∃ i ∈ transcript_introns inR, node_overlaps n i = true)) :=
  C3_candidate_iff inLocus inT inR (by decide) (by decide) (by decide)
    [inMS] (by rfl)

/-- C7 counterexample: in a tree whose single locus spans [0,100) but
contains the feature nnF2 spanning only [0,50), the query [150,200)
yields an INTERGENIC candidate for nnF2 carrying distance 100 — the
distance recomputed from the feature's own coordinates — although the
nearest-locus distance formula `min(abs(t.start - locus.end),
abs(locus.start - t.end))` gives 50. -/
theorem C7_counterexample :
    (nnF2, Category.INTERGENIC, (100 : ℤ)) ∈
      find_nearest_transcripts "chr1" 150 200 true nnTrees ∧
    interval_before (nnTrees "chr1") 150 MAX_LOCUS_DIST = [nnLocus] ∧
    interval_after (nnTrees "chr1") 200 MAX_LOCUS_DIST = [] ∧
    hit_dist 150 200 nnLocus.start nnLocus.stop = 50 ∧
    (100 : ℤ) ≠ 50 := by
  refine ⟨by decide, by decide, by decide, by decide, by decide⟩

/-- C7 (amended): every feature of every locus overlapping the query
span yields an ENCOMPASSING candidate at distance 0; every INTERGENIC
candidate comes from the single nearest locus strictly before `t.start`
or strictly after `t.end` on the same chromosome and carries the
distance `min(abs(t.start - f.end), abs(f.start - t.end))` recomputed
from that feature's own coordinates (not the locus span); non-INTERGENIC
candidates always carry distance 0. -/
theorem C7_nearest_distances (chrom : String) (start stop : ℕ) (strand : Bool)
    (locus_trees : String → List LocusInterval) :
    (∀ hit ∈ interval_find (locus_trees chrom) start stop, ∀ f ∈ hit.value,
      (f, (if cmp_strand f.strand strand then Category.ENCOMPASSING_SAME_STRAND
           else Category.ENCOMPASSING_OPP_STRAND), (0 : ℤ)) ∈
        find_nearest_transcripts chrom start stop strand locus_trees) ∧
    (∀ e ∈ find_nearest_transcripts chrom start stop strand locus_trees,
      (e.2.1 = Category.INTERGENIC →
        e.2.2 = hit_dist start stop e.1.start e.1.stop ∧
        ∃ h, (nearest_in (interval_before (locus_trees chrom) start
                MAX_LOCUS_DIST) start stop = some h ∨
              nearest_in (interval_after (locus_trees chrom) stop
                MAX_LOCUS_DIST) start stop = some h) ∧ e.1 ∈ h.value) ∧
      (e.2.1 ≠ Category.INTERGENIC → e.2.2 = 0)) := by
  constructor
  · intro hit hhit f hf
    simp only [find_nearest_transcripts]
    refine List.mem_append.mpr (Or.inl (List.mem_append.mpr (Or.inl ?_)))
    exact List.mem_flatMap.mpr ⟨hit, hhit, List.mem_map.mpr ⟨f, hf, rfl⟩⟩
  · intro e he
    simp only [find_nearest_transcripts] at he
    rcases List.mem_append.mp he with he1 | he2
    · rcases List.mem_append.mp he1 with hea | heb
      · obtain ⟨hit, _, hmap⟩ := List.mem_flatMap.mp hea
        obtain ⟨f, _, hfe⟩ := List.mem_map.mp hmap
        constructor
        · intro habs
          exfalso
          rw [← hfe] at habs
          by_cases hcs : cmp_strand f.strand strand = true
          · rw [if_pos hcs] at habs
            cases habs
          · rw [if_neg hcs] at habs
            cases habs
        · intro _
          rw [← hfe]
      · cases hnl : nearest_in (interval_before (locus_trees chrom) start
            MAX_LOCUS_DIST) start stop with
        | none => rw [hnl] at heb; simp at heb
        | some h =>
          rw [hnl] at heb
          obtain ⟨f, hfv, hfe⟩ := List.mem_map.mp heb
          constructor
          · intro _
            rw [← hfe]
            exact ⟨rfl, h, Or.inl rfl, hfv⟩
          · intro habs
            rw [← hfe] at habs
            simp at habs
    · cases hnr : nearest_in (interval_after (locus_trees chrom) stop
          MAX_LOCUS_DIST) start stop with
      | none => rw [hnr] at he2; simp at he2
      | some h =>
        rw [hnr] at he2
        obtain ⟨f, hfv, hfe⟩ := List.mem_map.mp he2
        constructor
        · intro _
          rw [← hfe]
          exact ⟨rfl, h, Or.inr rfl, hfv⟩
        · intro habs
          rw [← hfe] at habs
          simp at habs

/-- C7 (amended) witness: the counterexample tree, instantiating the
per-feature distance clause at nnF2. -/
theorem C7_nearest_distances_witness :
    ((nnF2, Category.INTERGENIC, (100 : ℤ)).2.2 =
      hit_dist 150 200 (nnF2, Category.INTERGENIC, (100 : ℤ)).1.start
        (nnF2, Category.INTERGENIC, (100 : ℤ)).1.stop) ∧
    ∃ h, (nearest_in (interval_before (nnTrees "chr1") 150 MAX_LOCUS_DIST)
            150 200 = some h ∨
          nearest_in (interval_after (nnTrees "chr1") 200 MAX_LOCUS_DIST)
            150 200 = some h) ∧
      (nnF2, Category.INTERGENIC, (100 : ℤ)).1 ∈ h.value :=
  ((C7_nearest_distances "chr1" 150 200 true nnTrees).2
    (nnF2, Category.INTERGENIC, (100 : ℤ)) (by decide)).1 (by decide)

theorem rt_rank_eq : rank_key rtMS0 = rank_key rtMS1 := rfl

theorem rt_not_desc : ¬ desc_le rtMS0 rtMS1 := by
  intro h
  rw [desc_le, full_key, full_key, Prod.Lex.le_iff] at h
  rcases h with h | ⟨_, h⟩
  · rw [rt_rank_eq] at h
    exact lt_irrefl _ h
  · exact absurd h (by decide)

theorem rt_sort : sort_desc [rtMS0, rtMS1] = [rtMS1, rtMS0] := by
  show List.insertionSort desc_le [rtMS0, rtMS1] = [rtMS1, rtMS0]
  simp only [List.insertionSort, List.orderedInsert]
  rw [if_neg rt_not_desc]

theorem rt_cond : rtMS1.category = Category.SAME_STRAND ∧
    1 < (same_strand_gene_ids [rtMS0, rtMS1]).length := by decide

theorem rt_best : MatchStats.choose_best [rtMS0, rtMS1] =
    some { rtMS1 with category := Category.READ_THROUGH } := by
  rw [choose_best_eq rt_sort, if_pos rt_cond]

theorem rt_post : (MatchStats.choose_best_full [rtMS0, rtMS1]).2 =
    [rtMS0, { rtMS1 with category := Category.READ_THROUGH }] := by
  rw [choose_best_full_snd_eq rt_sort, if_pos rt_cond]
  decide

/-- C5 counterexample: in the read-through locus, `compare_locus` emits
the detail list `[rtMS0, {rtMS1 with READ_THROUGH}]` — the winning
pair's detail row carries READ_THROUGH, not the SAME_STRAND category the
pairwise classifier assigned to that pair — because `choose_best`
mutates the chosen record in place and that record is aliased into the
detail list.  This refutes the claim that every emitted detail row
retains the classifier's category. -/
theorem C5_counterexample :
    compare_locus rtLocus = Except.ok
      [(rtT, some { rtMS1 with category := Category.READ_THROUGH },
        [rtMS0, { rtMS1 with category := Category.READ_THROUGH }])] ∧
    ({ rtMS1 with category := Category.READ_THROUGH }).ref_transcript_id =
      rtR2.transcript_id ∧
    decide_category (accumulate_match (find_exon_boundaries rtLocus) rtT rtR2)
      (split_exons rtT (find_exon_boundaries rtLocus)).length =
      Except.ok Category.SAME_STRAND ∧
    ({ rtMS1 with category := Category.READ_THROUGH }).category ≠
      Category.SAME_STRAND := by
  refine ⟨?_, by decide, by rfl, by decide⟩
  have hstats : locus_match_stats rtLocus rtT = Except.ok [rtMS0, rtMS1] := rfl
  have htt : test_transcripts rtLocus = [rtT] := rfl
  unfold compare_locus
  rw [htt]
  simp only [mapExcept, hstats, Except.map]
  have hfst : (MatchStats.choose_best_full [rtMS0, rtMS1]).1 =
      some { rtMS1 with category := Category.READ_THROUGH } := rt_best
  rw [hfst, rt_post]

end AsmCmp
